import Mathlib

/-!
Verification development for the core of a browser-resident sandboxed shell
emulator (command parser, pipeline executor, virtual filesystem, line editor,
keystroke recorder).  Each TypeScript component is shallowly embedded as
executable Lean definitions; JavaScript strings are modelled as `String`
(lists of characters at the boundaries), JS `Map`/object records as ordered
association lists with replace-or-append insertion, JS numbers that hold
timestamps as `Int`, and exit codes as `Nat`.  `Date.now()` is passed in as an
explicit timestamp argument.  Mutation of the filesystem tree through resolved
node references is modelled as a functional update at the canonical address of
the resolved node (the heap structure is a tree, so a resolved reference is
exactly the subtree at its canonical address).
-/

set_option autoImplicit false

namespace Shell

/-! ## Character-level string helpers -/

/-- Whitespace test used to model the JS `\s` class and `String.prototype.trim`
(the inputs in this development only use spaces). -/
def isWs (c : Char) : Bool := c.isWhitespace

/-- Model of `trim()` on a character list. -/
def trimChars (l : List Char) : String :=
  String.mk ((l.dropWhile isWs).reverse.dropWhile isWs |>.reverse)

/-- JS `s.startsWith(pre)` (on character lists, so that proofs can evaluate
it; JS strings are sequences of code units, modelled as character lists). -/
def strStartsWith (s pre : String) : Bool := pre.data.isPrefixOf s.data

/-- JS `s.endsWith(suf)`. -/
def strEndsWith (s suf : String) : Bool := suf.data.isSuffixOf s.data

/-- JS `s.slice(0, n)`. -/
def strTake (s : String) (n : Nat) : String := String.mk (s.data.take n)

/-- JS `s.slice(n)`. -/
def strDrop (s : String) (n : Nat) : String := String.mk (s.data.drop n)

/-- JS `s.length`. -/
def strLength (s : String) : Nat := s.data.length

/-- JS `s.includes(c)` for a single character. -/
def strContains (s : String) (c : Char) : Bool := s.data.any (fun x => x = c)

/-- JS `s.trim()`. -/
def strTrim (s : String) : String := trimChars s.data

/-- Split on runs of whitespace, as JS `split(/\s+/)`: a leading run produces
a leading empty piece, a trailing run a trailing empty piece.  The `inRun`
flag records whether the scanner is inside a whitespace run (each maximal run
is one separator). -/
def splitWsGo : List Char → List Char → List (List Char) → Bool →
    List (List Char)
  | [], cur, acc, false => acc ++ [cur.reverse]
  | [], _, acc, true => acc ++ [[]]
  | c :: rest, cur, acc, false =>
    if isWs c then splitWsGo rest [] (acc ++ [cur.reverse]) true
    else splitWsGo rest (c :: cur) acc false
  | c :: rest, cur, acc, true =>
    if isWs c then splitWsGo rest cur acc true
    else splitWsGo rest [c] acc false

/-- JS `str.split(/\s+/)` as a list of strings. -/
def splitWs (s : String) : List String :=
  (splitWsGo s.data [] [] false).map String.mk

/-- Split a string on a separator character, keeping empty pieces
(JS `split('/')`). -/
def splitOnChar (sep : Char) : List Char → List Char → List (List Char)
  | [], cur => [cur.reverse]
  | c :: rest, cur =>
    if c = sep then cur.reverse :: splitOnChar sep rest []
    else splitOnChar sep rest (c :: cur)

/-- JS `path.split('/').filter(Boolean)`. -/
def splitSlash (s : String) : List String :=
  ((splitOnChar '/' s.data []).map String.mk).filter (fun p => p ≠ "")

/-- JS `parts.join('/')`. -/
def joinSlash : List String → String
  | [] => ""
  | [p] => p
  | p :: rest => p ++ "/" ++ joinSlash rest

/-- Path components that JS path splitting can produce: non-empty and free of
separators. -/
def goodPart (x : String) : Bool := (x != "") && x.data.all (fun c => c ≠ '/')

/-- A path component the resolver can emit when resolving against the root
cwd: non-empty, slash-free, and not a dot component. -/
def canonPart (x : String) : Bool := goodPart x && (x != ".") && (x != "..")

/-! ## Command parser (`CommandParser.ts`) -/

/-- Value stored in the parsed `flags` record: JS `string | boolean`. -/
inductive FlagVal where
  | bool (b : Bool)
  | str  (s : String)
  deriving DecidableEq, Repr

/-- JS object-property assignment on an ordered record: replace the binding in
place if the key exists, otherwise append. -/
def recordSet {α : Type} : List (String × α) → String → α → List (String × α)
  | [], k, v => [(k, v)]
  | (k', v') :: rest, k, v =>
    if k' = k then (k, v) :: rest else (k', v') :: recordSet rest k v

/-- JS object-property / `Map.get` lookup. -/
def recordGet {α : Type} : List (String × α) → String → Option α
  | [], _ => none
  | (k', v') :: rest, k => if k' = k then some v' else recordGet rest k

/-- Parsed redirection target, `{file, append}`. -/
structure Redirect where
  file : String
  append : Bool
  deriving DecidableEq, Repr

/-- Result of `parseCommand`. -/
structure ParsedCommand where
  command : String
  args : List String
  rawArgs : String
  flags : List (String × FlagVal)
  inputRedirect : Option String := none
  outputRedirect : Option Redirect := none
  deriving DecidableEq, Repr

/-- State machine of `CommandParser.tokenize`, scanning left to right with
single-quote, double-quote and escape state. -/
def tokenizeGo : List Char → Bool → Bool → Bool → List Char → List (List Char) →
    List (List Char)
  | [], _, _, _, cur, acc => if cur ≠ [] then acc ++ [cur] else acc
  | c :: rest, inS, inD, esc, cur, acc =>
    if esc then tokenizeGo rest inS inD false (cur ++ [c]) acc
    else if c = '\\' ∧ ¬inS then tokenizeGo rest inS inD true cur acc
    else if c = '\'' ∧ ¬inD then tokenizeGo rest (!inS) inD false cur acc
    else if c = '"' ∧ ¬inS then tokenizeGo rest inS (!inD) false cur acc
    else if c = ' ' ∧ ¬inS ∧ ¬inD then
      if cur ≠ [] then tokenizeGo rest inS inD false [] (acc ++ [cur])
      else tokenizeGo rest inS inD false [] acc
    else tokenizeGo rest inS inD false (cur ++ [c]) acc

/-- `CommandParser.tokenize`: tokenize input respecting quotes. -/
def tokenize (input : String) : List String :=
  (tokenizeGo input.data false false false [] []).map String.mk

/-- Segment emitted by `splitPipeline`: a `{type, value}` record. -/
inductive PipeSeg where
  | command (value : String)
  | operator (value : String)
  deriving DecidableEq, Repr

/-- Flush the accumulated segment text: `if (current.trim()) results.push(...)`. -/
def flushCmd (cur : List Char) (acc : List PipeSeg) : List PipeSeg :=
  if trimChars cur ≠ "" then acc ++ [.command (trimChars cur)] else acc

/-- State machine of `CommandParser.splitPipeline`: the tokenizer's quote and
escape state plus recognition of the operators `||`, `&&`, `|`, `;`
(two-character operators matched before single). -/
def splitPipelineGo : List Char → Bool → Bool → Bool → List Char → List PipeSeg →
    List PipeSeg
  | [], _, _, _, cur, acc => flushCmd cur acc
  | c :: rest, inS, inD, esc, cur, acc =>
    if esc then splitPipelineGo rest inS inD false (cur ++ [c]) acc
    else if c = '\\' then splitPipelineGo rest inS inD true (cur ++ [c]) acc
    else if c = '\'' ∧ ¬inD then splitPipelineGo rest (!inS) inD false (cur ++ [c]) acc
    else if c = '"' ∧ ¬inS then splitPipelineGo rest inS (!inD) false (cur ++ [c]) acc
    else if inS ∨ inD then splitPipelineGo rest inS inD false (cur ++ [c]) acc
    else
      match c, rest with
      | '|', '|' :: rest' =>
        splitPipelineGo rest' inS inD false [] (flushCmd cur acc ++ [.operator "||"])
      | '&', '&' :: rest' =>
        splitPipelineGo rest' inS inD false [] (flushCmd cur acc ++ [.operator "&&"])
      | '|', rest' =>
        splitPipelineGo rest' inS inD false [] (flushCmd cur acc ++ [.operator "|"])
      | ';', rest' =>
        splitPipelineGo rest' inS inD false [] (flushCmd cur acc ++ [.operator ";"])
      | c', rest' => splitPipelineGo rest' inS inD false (cur ++ [c']) acc

/-- `CommandParser.splitPipeline`. -/
def splitPipeline (input : String) : List PipeSeg :=
  splitPipelineGo input.data false false false [] []

/-- Accumulator of the `parseCommand` token loop. -/
structure ParseAcc where
  args : List String
  flags : List (String × FlagVal)
  outputRedirect : Option Redirect
  inputRedirect : Option String

/-- Position of the first `'='` in a string, JS `indexOf('=')`. -/
def eqIndex (s : String) : Option Nat := s.data.findIdx? (fun c => c = '=')

/-- Token loop of `CommandParser.parseCommand`.  The `i + 1 < tokens.length`
lookahead is expressed by pattern-matching on the tail of the token list.  The
short-flag branch reproduces the source condition
`token.startsWith('-') && token.length > 1 && !token.startsWith('-')`
verbatim; its first and third conjuncts are contradictory, so it never fires. -/
def parseTokens : List String → ParseAcc → ParseAcc
  | [], acc => acc
  | [tok], acc =>
    -- Final token: every `i + 1 < tokens.length` lookahead fails.
    if strStartsWith tok ">>" then
      parseTokens [] { acc with outputRedirect := some ⟨strDrop tok 2, true⟩ }
    else if strStartsWith tok ">" ∧ strLength tok > 1 then
      parseTokens [] { acc with outputRedirect := some ⟨strDrop tok 1, false⟩ }
    else if strStartsWith tok "--" then
      match eqIndex tok with
      | some i =>
        parseTokens []
          { acc with flags := (recordSet acc.flags (strDrop (strTake tok i) 2)
              (FlagVal.str (strDrop tok (i + 1)))) }
      | none =>
        parseTokens []
          { acc with flags := recordSet acc.flags (strDrop tok 2) (.bool true) }
    else if strStartsWith tok "-" ∧ strLength tok > 1 ∧ ¬strStartsWith tok "-" then
      parseTokens []
        { acc with flags := ((tok.data.drop 1).foldl
            (fun fs ch => recordSet fs (String.mk [ch]) (.bool true)) acc.flags) }
    else
      parseTokens [] { acc with args := acc.args ++ [tok] }
  | tok :: next :: rest', acc =>
    if tok = ">>" then
      parseTokens rest' { acc with outputRedirect := some ⟨next, true⟩ }
    else if tok = ">" then
      parseTokens rest' { acc with outputRedirect := some ⟨next, false⟩ }
    else if strStartsWith tok ">>" then
      parseTokens (next :: rest')
        { acc with outputRedirect := some ⟨strDrop tok 2, true⟩ }
    else if strStartsWith tok ">" ∧ strLength tok > 1 then
      parseTokens (next :: rest')
        { acc with outputRedirect := some ⟨strDrop tok 1, false⟩ }
    else if tok = "<" then
      parseTokens rest' { acc with inputRedirect := some next }
    else if strStartsWith tok "--" then
      match eqIndex tok with
      | some i =>
        parseTokens (next :: rest')
          { acc with flags := (recordSet acc.flags (strDrop (strTake tok i) 2)
              (FlagVal.str (strDrop tok (i + 1)))) }
      | none =>
        if ¬strStartsWith next "-" then
          parseTokens rest'
            { acc with flags := recordSet acc.flags (strDrop tok 2) (.str next) }
        else
          parseTokens (next :: rest')
            { acc with flags := recordSet acc.flags (strDrop tok 2) (.bool true) }
    else if strStartsWith tok "-" ∧ strLength tok > 1 ∧ ¬strStartsWith tok "-" then
      parseTokens (next :: rest')
        { acc with flags := ((tok.data.drop 1).foldl
            (fun fs ch => recordSet fs (String.mk [ch]) (.bool true)) acc.flags) }
    else
      parseTokens (next :: rest') { acc with args := acc.args ++ [tok] }

/-- `CommandParser.parseCommand`. -/
def parseCommand (input : String) : ParsedCommand :=
  match tokenize input with
  | [] => { command := "", args := [], rawArgs := "", flags := [] }
  | command :: restTokens =>
    let acc := parseTokens restTokens
      { args := [], flags := [], outputRedirect := none, inputRedirect := none }
    { command := command
      args := acc.args
      rawArgs := " ".intercalate restTokens
      flags := acc.flags
      inputRedirect := acc.inputRedirect
      outputRedirect := acc.outputRedirect }

/-- Parsed pipeline: commands and positional operators. -/
structure Pipeline where
  commands : List ParsedCommand
  operators : List String
  deriving DecidableEq, Repr

/-- `CommandParser.parse`: split into segments, parse command segments, collect
operator segments. -/
def parse (input : String) : Pipeline :=
  (splitPipeline input).foldl
    (fun pl seg =>
      match seg with
      | .operator v => { pl with operators := pl.operators ++ [v] }
      | .command v => { pl with commands := pl.commands ++ [parseCommand v] })
    { commands := [], operators := [] }

/-! ## Virtual filesystem (`VirtualFileSystem.ts`)

The JS heap holds the VFS as a tree of mutable `FSNode` objects; directories
carry a `Map<string, FSNode>` of children.  The tree is embedded as a mutual
inductive (`FSNode` / `FSEntries`, the latter an ordered association list with
`Map` get/set/delete semantics).  A resolved node reference is modelled by the
node's canonical address (list of child keys from the root); mutating through a
reference becomes a functional update at that address.  The display-only
`modified` timestamp (`Date.now()`) is not modelled. -/

/-- Node kind: `'file' | 'directory' | 'symlink'`. -/
inductive FSType where
  | file
  | directory
  | symlink
  deriving DecidableEq, Repr

mutual

inductive FSNode where
  | mk (name : String) (type : FSType) (content : Option String)
       (target : Option String) (permissions : Option String)
       (children : Option FSEntries)

inductive FSEntries where
  | nil
  | cons (key : String) (node : FSNode) (rest : FSEntries)

end

namespace FSNode

def name : FSNode → String
  | mk n _ _ _ _ _ => n

def type : FSNode → FSType
  | mk _ t _ _ _ _ => t

def content : FSNode → Option String
  | mk _ _ c _ _ _ => c

def target : FSNode → Option String
  | mk _ _ _ t _ _ => t

def permissions : FSNode → Option String
  | mk _ _ _ _ p _ => p

def children : FSNode → Option FSEntries
  | mk _ _ _ _ _ ch => ch

/-- Replace the children map (models mutating `node.children`). -/
def withChildren : FSNode → Option FSEntries → FSNode
  | mk n t c tg p _, ch => mk n t c tg p ch

end FSNode

namespace FSEntries

/-- JS `Map.get`. -/
def get : FSEntries → String → Option FSNode
  | nil, _ => none
  | cons k v rest, key => if k = key then some v else get rest key

/-- JS `Map.set`: replace the binding in place if the key exists, otherwise
append (insertion order preserved). -/
def set : FSEntries → String → FSNode → FSEntries
  | nil, key, v => cons key v nil
  | cons k v' rest, key, v =>
    if k = key then cons key v rest else cons k v' (set rest key v)

/-- JS `Map.delete`. -/
def del : FSEntries → String → FSEntries
  | nil, _ => nil
  | cons k v rest, key => if k = key then rest else cons k v (del rest key)

/-- JS `Map.has`. -/
def hasKey (es : FSEntries) (key : String) : Bool := (es.get key).isSome

end FSEntries

/-- Children maps with pairwise-distinct keys (every JS `Map` satisfies this;
the association-list embedding admits duplicate keys that no `Map` can
hold). -/
def nodupKeys : FSEntries → Bool
  | .nil => true
  | .cons k _ rest => (!(rest.hasKey k)) && nodupKeys rest

/-- File node as built by `writeFile`. -/
def newFileNode (name content : String) : FSNode :=
  .mk name .file (some content) none (some "-rw-r--r--") none

/-- The constructor's root: a directory named "/" with an empty children map
and permissions `drwxr-xr-x`. -/
def emptyRoot : FSNode :=
  .mk "/" .directory none none (some "drwxr-xr-x") (some .nil)

namespace VFS

/-- `VirtualFileSystem._resolveParts`: purely syntactic resolution of `.` and
`..` against the base parts of `cwd` (for relative paths). -/
def resolveParts (path cwd : String) : List String :=
  let baseParts := if strStartsWith path "/" then [] else splitSlash cwd
  let inputParts := splitSlash path
  inputParts.foldl
    (fun resolved part =>
      if part = "." then resolved
      else if part = ".." then resolved.dropLast
      else resolved ++ [part])
    baseParts

/-- `VirtualFileSystem.resolvePath`. -/
def resolvePath (path cwd : String) : String :=
  "/" ++ joinSlash (resolveParts path cwd)

/-- Structural lookup of the node at a canonical address. -/
def getAt : FSNode → List String → Option FSNode
  | n, [] => some n
  | n, p :: ps =>
    match n.children with
    | none => none
    | some es =>
      match es.get p with
      | none => none
      | some child => getAt child ps

/-- Functional update of the node at a canonical address (models in-place
mutation of the referenced node).  Invalid addresses leave the tree
unchanged; they are never produced by a successful walk. -/
def setAt : FSNode → List String → FSNode → FSNode
  | _, [], v => v
  | n, p :: ps, v =>
    match n.children with
    | none => n
    | some es =>
      match es.get p with
      | none => n
      | some child => n.withChildren (some (es.set p (setAt child ps v)))

/-- Part-walking loop of `VirtualFileSystem._walk`, returning the canonical
address of the resolved node.  `recurse` is the resolution of a symlink
target from the root at the next symlink depth; `synPre` tracks
`parts.slice(0, i)`, the syntactic prefix against which a relative symlink
target is resolved; `addr` is the canonical address of `current`. -/
def walkLoop (root : FSNode) (recurse : List String → Option (List String)) :
    List String → List String → List String → Option (List String)
  | [], _, addr => some addr
  | p :: restParts, synPre, addr =>
    match getAt root addr with
    | none => none
    | some cur =>
      if cur.type ≠ .directory then none
      else
        match cur.children with
        | none => none
        | some es =>
          match es.get p with
          | none => none
          | some child =>
            if child.type = .symlink ∧ child.target.getD "" ≠ "" then
              let targetParts :=
                resolveParts (child.target.getD "") ("/" ++ joinSlash synPre)
              match recurse targetParts with
              | none => none
              | some tAddr => walkLoop root recurse restParts (synPre ++ [p]) tAddr
            else walkLoop root recurse restParts (synPre ++ [p]) (addr ++ [p])

/-- `VirtualFileSystem._walk` by remaining symlink depth.  `gas` is
`21 - depth`: the source checks `depth > 20` on entry and recurses into
symlink targets with `depth + 1`, so `gas = 0` is the rejected level. -/
def walkGas (root : FSNode) : Nat → List String → Option (List String)
  | 0, _ => none
  | Nat.succ gas, parts => walkLoop root (walkGas root gas) parts [] []

/-- Address form of `VirtualFileSystem.resolve` (the top-level call has
`depth = 0`, i.e. `gas = 21`). -/
def resolveAddr (root : FSNode) (path : String) (cwd : String := "/") :
    Option (List String) :=
  walkGas root 21 (resolveParts path cwd)

/-- `VirtualFileSystem.resolve`: the node a successful walk points at. -/
def resolve (root : FSNode) (path : String) (cwd : String := "/") :
    Option FSNode :=
  (resolveAddr root path cwd).bind (getAt root)

/-- `VirtualFileSystem.readFile`. -/
def readFile (root : FSNode) (path : String) (cwd : String := "/") :
    Option String :=
  match resolve root path cwd with
  | none => none
  | some n => if n.type = .file then some (n.content.getD "") else none

/-- `VirtualFileSystem.writeFile`, returning the updated tree and the source's
boolean result.  When the resolved path has no components the source pops
`undefined` off the parts and stores the new node under the `undefined` key of
the root's children map, which no string lookup ever observes; this is
modelled as returning `true` with the tree unchanged. -/
def writeFile (root : FSNode) (path content : String) (cwd : String := "/") :
    FSNode × Bool :=
  let parts := splitSlash (resolvePath path cwd)
  match parts.getLast? with
  | none => (root, true)
  | some fileName =>
    let parentPath := "/" ++ joinSlash parts.dropLast
    match walkGas root 21 (resolveParts parentPath "/") with
    | none => (root, false)
    | some pAddr =>
      match getAt root pAddr with
      | none => (root, false)
      | some parent =>
        if parent.type ≠ .directory then (root, false)
        else
          match parent.children with
          | none => (root, false)
          | some es =>
            match es.get fileName with
            | some existing =>
              if existing.type = .directory then (root, false)
              else
                (setAt root pAddr
                  (parent.withChildren (some (es.set fileName
                    (newFileNode fileName content)))), true)
            | none =>
              (setAt root pAddr
                (parent.withChildren (some (es.set fileName
                  (newFileNode fileName content)))), true)

/-- `VirtualFileSystem.appendFile`: append to a resolved file in place,
falling back to `writeFile` when the node is absent or not a file. -/
def appendFile (root : FSNode) (path content : String) (cwd : String := "/") :
    FSNode × Bool :=
  match resolveAddr root path cwd with
  | some addr =>
    match getAt root addr with
    | some n =>
      if n.type = .file then
        (setAt root addr
          (.mk n.name n.type (some (n.content.getD "" ++ content)) n.target
            n.permissions n.children), true)
      else writeFile root path content cwd
    | none => writeFile root path content cwd
  | none => writeFile root path content cwd

/-- `VirtualFileSystem.rm`. -/
def rm (root : FSNode) (path : String) (cwd : String := "/")
    (recursive : Bool := false) : FSNode × Bool :=
  let parts := splitSlash (resolvePath path cwd)
  match parts.getLast? with
  | none => (root, false)
  | some fileName =>
    let parentPath := "/" ++ joinSlash parts.dropLast
    match walkGas root 21 (resolveParts parentPath "/") with
    | none => (root, false)
    | some pAddr =>
      match getAt root pAddr with
      | none => (root, false)
      | some parent =>
        if parent.type ≠ .directory then (root, false)
        else
          match parent.children with
          | none => (root, false)
          | some es =>
            match es.get fileName with
            | none => (root, false)
            | some tgt =>
              if tgt.type = .directory ∧ ¬recursive then (root, false)
              else
                (setAt root pAddr
                  (parent.withChildren (some (es.del fileName))), true)

/-- `VirtualFileSystem.exists` (named `existsPath` because `exists` is a Lean
keyword). -/
def existsPath (root : FSNode) (path : String) (cwd : String := "/") : Bool :=
  (resolve root path cwd).isSome

/-- `VirtualFileSystem.isDirectory`. -/
def isDirectory (root : FSNode) (path : String) (cwd : String := "/") : Bool :=
  match resolve root path cwd with
  | some n => n.type = .directory
  | none => false

/-- `VirtualFileSystem.isFile`. -/
def isFile (root : FSNode) (path : String) (cwd : String := "/") : Bool :=
  match resolve root path cwd with
  | some n => n.type = .file
  | none => false

end VFS

/-! ## Snapshot round-trip (`toJSON` / `fromJSON`) -/

mutual

inductive FSNodeJSON where
  | mk (name : String) (type : FSType) (content : Option String)
       (target : Option String) (permissions : Option String)
       (children : Option JEntries)

inductive JEntries where
  | nil
  | cons (key : String) (node : FSNodeJSON) (rest : JEntries)

end

mutual

/-- `VirtualFileSystem._nodeToJSON`: `content` is copied when present (the
source tests `!== undefined`), `target` and `permissions` only when truthy
(present and non-empty), `children` whenever the map exists. -/
def nodeToJSON : FSNode → FSNodeJSON
  | .mk name type content target permissions children =>
    .mk name type content
      (match target with
       | some t => if t ≠ "" then some t else none
       | none => none)
      (match permissions with
       | some p => if p ≠ "" then some p else none
       | none => none)
      (match children with
       | some es => some (entriesToJSON es)
       | none => none)

def entriesToJSON : FSEntries → JEntries
  | .nil => .nil
  | .cons k n rest => .cons k (nodeToJSON n) (entriesToJSON rest)

end

mutual

/-- `VirtualFileSystem._jsonToNode` (the `modified = Date.now()` stamp is not
modelled). -/
def jsonToNode : FSNodeJSON → FSNode
  | .mk name type content target permissions children =>
    .mk name type content target permissions
      (match children with
       | some es => some (jsonToEntries es)
       | none => none)

def jsonToEntries : JEntries → FSEntries
  | .nil => .nil
  | .cons k n rest => .cons k (jsonToNode n) (jsonToEntries rest)

end

mutual

/-- Predicate for trees containing no symlink node. -/
def noSymNode : FSNode → Bool
  | .mk _ t _ _ _ children =>
    (t != FSType.symlink) &&
    (match children with
     | some es => noSymEntries es
     | none => true)

def noSymEntries : FSEntries → Bool
  | .nil => true
  | .cons _ n rest => noSymNode n && noSymEntries rest

end

/-- Specification device: the walk of `_walk` specialised to symlink-free
trees, where the symlink branch never fires and the loop is a plain
directory-chain descent.  `walkLoop` coincides with it on symlink-free trees
(`walkLoop_noSym`). -/
def walkPure (root : FSNode) : List String → List String → Option (List String)
  | [], addr => some addr
  | p :: rest, addr =>
    match VFS.getAt root addr with
    | none => none
    | some cur =>
      if cur.type ≠ .directory then none
      else
        match cur.children with
        | none => none
        | some es =>
          match es.get p with
          | none => none
          | some _ => walkPure root rest (addr ++ [p])

/-- Hypothesis helper: the path resolves to a directory carrying a children
map. -/
def VFS.isDirWithChildren (root : FSNode) (path : String)
    (cwd : String := "/") : Bool :=
  match VFS.resolve root path cwd with
  | some n => (n.type == FSType.directory) && n.children.isSome
  | none => false

mutual

/-- Predicate for trees in which no node carries an empty-string `target` or
`permissions` value (the values JS truthiness drops in `_nodeToJSON`). -/
def cleanNode : FSNode → Bool
  | .mk _ _ _ target permissions children =>
    (target != some "") && (permissions != some "") &&
    (match children with
     | some es => cleanEntries es
     | none => true)

def cleanEntries : FSEntries → Bool
  | .nil => true
  | .cons _ n rest => cleanNode n && cleanEntries rest

end

mutual

/-- JS `Map` key invariant: every children map in the tree has pairwise
distinct keys.  `Map.set` never creates duplicates, so every tree the
program builds satisfies it. -/
def wfKeysNode : FSNode → Bool
  | .mk _ _ _ _ _ children =>
    match children with
    | some es => nodupKeys es && wfKeysEntries es
    | none => true

def wfKeysEntries : FSEntries → Bool
  | .nil => true
  | .cons _ n rest => wfKeysNode n && wfKeysEntries rest

end

/-! ## Command context (`CommandContext.ts`)

The `challenge` sub-record (levels, objectives, hints) is owned by the
challenge subsystem, which no claim touches; it is omitted from the
embedding. -/

structure CommandContext where
  cwd : String
  env : List (String × String)
  fs : FSNode
  exitCode : Nat
  user : String
  hostname : String

/-- The constructor's initial context over a given filesystem. -/
def initCtxWith (fs : FSNode) : CommandContext where
  cwd := "/opt/fleetcore"
  env := [("HOME", "/home/candidate"), ("USER", "candidate"),
          ("PATH", "/usr/local/bin:/usr/bin:/bin"), ("SHELL", "/bin/bash"),
          ("TERM", "xterm-256color"), ("NODE_ENV", "development"),
          ("PWD", "/opt/fleetcore")]
  fs := fs
  exitCode := 0
  user := "candidate"
  hostname := "fleetcore"

/-- Context of a freshly constructed engine (empty VFS). -/
def initCtx : CommandContext := initCtxWith emptyRoot

/-- Character class of the JS `\w` regex escape. -/
def isWordChar (c : Char) : Bool := c.isAlphanum || c = '_'

/-- Lookup with JS `env[name] || ''` semantics (a missing entry and an empty
entry both yield `""`). -/
def envOrEmpty (env : List (String × String)) (name : String) : String :=
  (recordGet env name).getD ""

/-- Scanner for the global replacement of `$NAME` (regex `\$(\w+)`) by the
environment value.  The second argument is the scanner mode: `none` while
scanning plain text, `some nmRev` while collecting the (reversed) run of word
characters after a `$`.  A `$` followed by no word character is kept
literally; after a replacement the scan resumes at the first non-word
character, which may itself start the next match. -/
def expandD (env : List (String × String)) : List Char → Option (List Char) →
    List Char
  | [], none => []
  | [], some nmRev =>
    if nmRev ≠ [] then (envOrEmpty env (String.mk nmRev.reverse)).data
    else ['$']
  | c :: rest, none =>
    if c = '$' then expandD env rest (some [])
    else c :: expandD env rest none
  | c :: rest, some nmRev =>
    if isWordChar c then expandD env rest (some (c :: nmRev))
    else if nmRev ≠ [] then
      (envOrEmpty env (String.mk nmRev.reverse)).data ++
        (if c = '$' then expandD env rest (some [])
         else c :: expandD env rest none)
    else
      '$' :: (if c = '$' then expandD env rest (some [])
              else c :: expandD env rest none)

/-- Global replacement of `$NAME`. -/
def expandDollar (env : List (String × String)) (l : List Char) : List Char :=
  expandD env l none

/-- Scanner for the global replacement of `${NAME}` (regex `\$\{(\w+)\}`).
`some nmRev` is the mode entered after seeing `${`; a failed match re-emits
the consumed characters literally and resumes (no match can begin inside the
consumed `{…` run, which contains no `$`). -/
def expandB (env : List (String × String)) : List Char → Option (List Char) →
    List Char
  | [], none => []
  | [], some nmRev => '$' :: '{' :: nmRev.reverse
  | '$' :: '{' :: rest, none => expandB env rest (some [])
  | c :: rest, none => c :: expandB env rest none
  | c :: rest, some nmRev =>
    if isWordChar c then expandB env rest (some (c :: nmRev))
    else if c = '}' ∧ nmRev ≠ [] then
      (envOrEmpty env (String.mk nmRev.reverse)).data ++ expandB env rest none
    else
      '$' :: '{' :: nmRev.reverse ++
        (match c, rest with
         | '$', '{' :: rest2 => expandB env rest2 (some [])
         | c', rest' => c' :: expandB env rest' none)

/-- Global replacement of `${NAME}`. -/
def expandBrace (env : List (String × String)) (l : List Char) : List Char :=
  expandB env l none

/-- `CommandContext.resolvePath`: `~` expansion, `$VAR` and `${VAR}`
expansion, then syntactic resolution against the context's `cwd`. -/
def CommandContext.resolvePath (ctx : CommandContext) (path : String) : String :=
  let p1 := if strStartsWith path "~" then envOrEmpty ctx.env "HOME" ++ strDrop path 1
            else path
  let p2 := String.mk (expandDollar ctx.env p1.data)
  let p3 := String.mk (expandBrace ctx.env p2.data)
  VFS.resolvePath p3 ctx.cwd

/-! ## Command handlers (subset exercised by the claims)

The full registry installs about forty handlers; the embedding carries the
ones the verified claims execute (`echo`, `wc`, `true`, `false`, `cat`,
`mv`).  All are synchronous and none throws, so the executor's `try`/`catch`
wrapper has no observable effect on them and is not modelled. -/

structure CommandResult where
  output : String
  exitCode : Nat
  deriving DecidableEq, Repr

/-- Handler type `(ParsedCommand, ctx, stdin) → {output, exitCode}`, with the
context threaded explicitly for mutation. -/
def Handler : Type :=
  ParsedCommand → CommandContext → Option String → CommandResult × CommandContext

/-- JS truthiness of a flag record entry. -/
def flagTruthy : Option FlagVal → Bool
  | some (.bool b) => b
  | some (.str s) => s ≠ ""
  | none => false

/-- Strict `flags[x] === true` test. -/
def flagIsTrue (flags : List (String × FlagVal)) (k : String) : Bool :=
  recordGet flags k = some (FlagVal.bool true)

/-- Global literal substring replacement (one JS `replace(/pat/g, rep)` pass
for a literal pattern). -/
def replaceSub (pat rep : List Char) : List Char → List Char
  | [] => []
  | c :: rest =>
    if pat ≠ [] ∧ pat.isPrefixOf (c :: rest) then
      rep ++ replaceSub pat rep ((c :: rest).drop pat.length)
    else c :: replaceSub pat rep rest
termination_by l => l.length
decreasing_by
  · rename_i h
    have hp : 0 < pat.length := List.length_pos.mpr h.1
    simp only [List.length_drop, List.length_cons]
    omega
  · simp only [List.length_cons]
    omega

/-- `handleEcho`: join the args, expand `$VAR` and `${VAR}`, then apply the
`-e` escape passes (`\n`, `\t`, `\\`, in that order).  The `-n` branch of the
source returns the same record as the fall-through return. -/
def handleEcho : Handler := fun cmd ctx _ =>
  let out1 := " ".intercalate cmd.args
  let out2 := String.mk (expandDollar ctx.env out1.data)
  let out3 := String.mk (expandBrace ctx.env out2.data)
  let out4 :=
    if flagIsTrue cmd.flags "e" then
      String.mk (replaceSub ['\\', '\\'] ['\\']
        (replaceSub ['\\', 't'] ['\t']
          (replaceSub ['\\', 'n'] ['\n'] out3.data)))
    else out3
  (⟨out4, 0⟩, ctx)

/-- Registered closure for `true`. -/
def handleTrue : Handler := fun _ ctx _ => (⟨"", 0⟩, ctx)

/-- Registered closure for `false`. -/
def handleFalse : Handler := fun _ ctx _ => (⟨"", 1⟩, ctx)

/-- `handleCat`: stdin fallback, then concatenation of the named files with
directory and not-found errors. -/
def handleCat : Handler := fun cmd ctx stdin =>
  if cmd.args.length = 0 then (⟨stdin.getD "", 0⟩, ctx)
  else
    let rec go : List String → List String → CommandResult
      | [], outputs => ⟨String.join outputs, 0⟩
      | arg :: rest, outputs =>
        let resolvedPath := ctx.resolvePath arg
        match VFS.readFile ctx.fs resolvedPath "/" with
        | none =>
          if VFS.isDirectory ctx.fs resolvedPath "/" then
            ⟨"cat: " ++ arg ++ ": Is a directory", 1⟩
          else ⟨"cat: " ++ arg ++ ": No such file or directory", 1⟩
        | some content => go rest (outputs ++ [content])
    (go cmd.args [], ctx)

/-- Count of `text.split('\n').length - (text.endsWith('\n') ? 1 : 0)`. -/
def wcLineCount (text : String) : Nat :=
  (splitOnChar '\n' text.data []).length - (if strEndsWith text "\n" then 1 else 0)

/-- Count of `text.split(/\s+/).filter(Boolean).length`. -/
def wcWordCount (text : String) : Nat :=
  ((splitWs text).filter (fun w => w ≠ "")).length

/-- `handleWc`: word/line/char counts of stdin or of the first file argument;
the `-l`/`-w`/`-c` switches are read from the parsed `flags` record with JS
truthiness. -/
def handleWc : Handler := fun cmd ctx stdin =>
  let getText : Option (String × String) :=
    if cmd.args.length = 0 ∧ stdin.isSome ∧ stdin ≠ some "" then
      some (stdin.getD "", "")
    else if cmd.args.length = 0 then none
    else
      let resolvedPath := ctx.resolvePath (cmd.args.headD "")
      match VFS.readFile ctx.fs resolvedPath "/" with
      | none => none
      | some content => some (content, cmd.args.headD "")
  match getText with
  | none =>
    if cmd.args.length > 0 then
      (⟨"wc: " ++ cmd.args.headD "" ++ ": No such file or directory", 1⟩, ctx)
    else (⟨"", 1⟩, ctx)
  | some (text, nm) =>
    let lineCount := wcLineCount text
    let wordCount := wcWordCount text
    let charCount := strLength text
    if flagTruthy (recordGet cmd.flags "l") then
      (⟨strTrim (toString lineCount ++ " " ++ nm), 0⟩, ctx)
    else if flagTruthy (recordGet cmd.flags "w") then
      (⟨strTrim (toString wordCount ++ " " ++ nm), 0⟩, ctx)
    else if flagTruthy (recordGet cmd.flags "c") then
      (⟨strTrim (toString charCount ++ " " ++ nm), 0⟩, ctx)
    else
      (⟨strTrim ("  " ++ toString lineCount ++ "  " ++ toString wordCount ++
          " " ++ toString charCount ++ " " ++ nm), 0⟩, ctx)

/-- JS `src.split('/').pop()!` (split without filtering empties). -/
def lastSlashComponent (s : String) : String :=
  (((splitOnChar '/' s.data []).map String.mk).getLast?).getD ""

/-- `handleMv`: read the source's content, write it to the destination (into
the directory when the destination is one), then remove the source.  The
boolean results of `writeFile` and `rm` are discarded by the source. -/
def handleMv : Handler := fun cmd ctx _ =>
  if cmd.args.length < 2 then (⟨"mv: missing file operand", 1⟩, ctx)
  else
    let src := ctx.resolvePath (cmd.args.headD "")
    let dest := ctx.resolvePath (cmd.args.getD 1 "")
    match VFS.readFile ctx.fs src "/" with
    | none =>
      (⟨"mv: cannot stat '" ++ cmd.args.headD "" ++
          "': No such file or directory", 1⟩, ctx)
    | some content =>
      let fs1 :=
        if VFS.isDirectory ctx.fs dest "/" then
          (VFS.writeFile ctx.fs (dest ++ "/" ++ lastSlashComponent src) content
            "/").1
        else (VFS.writeFile ctx.fs dest content "/").1
      let fs2 := (VFS.rm fs1 src "/").1
      (⟨"", 0⟩, { ctx with fs := fs2 })

/-- Registry lookup restricted to the handlers the claims execute (no alias
is involved for these names). -/
def registryGet : String → Option Handler := fun nm =>
  match nm with
  | "echo" => some handleEcho
  | "wc" => some handleWc
  | "true" => some handleTrue
  | "false" => some handleFalse
  | "cat" => some handleCat
  | "mv" => some handleMv
  | _ => none

/-! ## Pipeline executor (`PipelineExecutor.ts`) -/

/-- Key test of the `VAR=value` form: regex `^[A-Za-z_]\w*$`. -/
def isEnvKey (s : String) : Bool :=
  match s.data with
  | [] => false
  | c :: rest => (c.isAlpha || c = '_') && rest.all isWordChar

/-- `PipelineExecutor.executeCommand`: empty command is a no-op, `VAR=value`
sets the environment, unknown commands exit 127, and an output redirection
captures the handler's output into the VFS (with a trailing newline) and
suppresses it. -/
def executeCommand (reg : String → Option Handler) (cmd : ParsedCommand)
    (ctx : CommandContext) (stdin : Option String) :
    CommandResult × CommandContext :=
  if cmd.command = "" then (⟨"", 0⟩, ctx)
  else
    let eqIdx := (eqIndex cmd.command).getD 0
    let key := strTake cmd.command eqIdx
    let value := strDrop cmd.command (eqIdx + 1)
    if strContains cmd.command '=' ∧ ¬strStartsWith cmd.command "=" ∧ isEnvKey key then
      (⟨"", 0⟩, { ctx with env := recordSet ctx.env key value })
    else
      match reg cmd.command with
      | none => (⟨cmd.command ++ ": command not found", 127⟩, ctx)
      | some handler =>
        let (result, ctx1) := handler cmd ctx stdin
        let ctx2 := { ctx1 with exitCode := result.exitCode }
        match cmd.outputRedirect with
        | some r =>
          let filePath := ctx2.resolvePath r.file
          let fs' :=
            if r.append then
              (VFS.appendFile ctx2.fs filePath (result.output ++ "\n") "/").1
            else (VFS.writeFile ctx2.fs filePath (result.output ++ "\n") "/").1
          (⟨"", result.exitCode⟩, { ctx2 with fs := fs' })
        | none => (result, ctx2)

/-- Loop body of `PipelineExecutor.executePipeline`: `i` indexes the current
command, `ops.get? (i-1)` is the operator preceding it.  A failed `&&` or a
succeeded `||` breaks out of the loop, returning the last result; after a
command the pipe input is set when either the preceding or the following
operator is `|`. -/
def pipeGo (reg : String → Option Handler) (ops : List String) :
    Nat → List ParsedCommand → CommandResult → Option String →
    CommandContext → CommandResult × CommandContext
  | _, [], last, _, ctx => (last, ctx)
  | i, c :: rest, last, pipeInput, ctx =>
    let op := if i > 0 then ops.get? (i - 1) else none
    if op = some "&&" ∧ last.exitCode ≠ 0 then (last, ctx)
    else if op = some "||" ∧ last.exitCode = 0 then (last, ctx)
    else
      let (res, ctx') := executeCommand reg c ctx pipeInput
      let pin1 := if op = some "|" then some res.output else none
      let pin2 := if ops.get? i = some "|" then some res.output else pin1
      pipeGo reg ops (i + 1) rest res pin2 ctx'

/-- `PipelineExecutor.execute`. -/
def execute (reg : String → Option Handler) (input : String)
    (ctx : CommandContext) : CommandResult × CommandContext :=
  let pipeline := parse input
  if pipeline.commands.length = 0 then (⟨"", 0⟩, ctx)
  else if pipeline.commands.length = 1 ∧ pipeline.operators.length = 0 then
    executeCommand reg
      (pipeline.commands.headD { command := "", args := [], rawArgs := "", flags := [] })
      ctx none
  else pipeGo reg pipeline.operators 0 pipeline.commands ⟨"", 0⟩ none ctx

/-! ## Line editor (`InputBuffer.ts`)

The buffer string is modelled as a list of characters, the cursor as a `Nat`,
and `historyIndex` as an `Int` (the source uses `-1` as the fresh-line
sentinel).  Every method returns the mutated state together with the ANSI echo
string it hands back to the terminal.  The tab-completion provider is an
external callback installed by the engine; it is passed to `tabComplete` as an
argument. -/

structure BufState where
  buffer : List Char
  cursorPos : Nat
  history : List (List Char)
  historyIndex : Int
  tempBuffer : List Char

/-- Freshly constructed `InputBuffer`. -/
def initBuf : BufState :=
  { buffer := [], cursorPos := 0, history := [], historyIndex := -1,
    tempBuffer := [] }

/-- ANSI cursor-left sequence `ESC[<n>D`. -/
def escD (n : Nat) : String := "\x1b[" ++ toString n ++ "D"

/-- ANSI cursor-right sequence `ESC[<n>C`. -/
def escC (n : Nat) : String := "\x1b[" ++ toString n ++ "C"

/-- A run of `n` spaces (JS `' '.repeat(n)`). -/
def spaces (n : Nat) : String := String.mk (List.replicate n ' ')

namespace InputBuffer

/-- `insert`: splice the inserted string at the cursor (the argument is a
single character from the engine, or a longer string from `tabComplete`). -/
def insert (s : BufState) (c : List Char) : BufState × String :=
  let before := s.buffer.take s.cursorPos
  let after := s.buffer.drop s.cursorPos
  let s' := { s with buffer := before ++ c ++ after,
                     cursorPos := s.cursorPos + c.length }
  if after.length > 0 then
    (s', String.mk (c ++ after) ++ escD after.length)
  else (s', String.mk c)

/-- `backspace`. -/
def backspace (s : BufState) : BufState × String :=
  if s.cursorPos = 0 then (s, "")
  else
    let before := s.buffer.take (s.cursorPos - 1)
    let after := s.buffer.drop s.cursorPos
    let s' := { s with buffer := before ++ after, cursorPos := s.cursorPos - 1 }
    if after.length > 0 then
      (s', escD 1 ++ String.mk after ++ " " ++ escD (after.length + 1))
    else (s', "\x1b[D \x1b[D")

/-- `delete` (the Delete key). -/
def delete (s : BufState) : BufState × String :=
  if s.cursorPos ≥ s.buffer.length then (s, "")
  else
    let before := s.buffer.take s.cursorPos
    let after := s.buffer.drop (s.cursorPos + 1)
    ({ s with buffer := before ++ after },
      String.mk after ++ " " ++ escD (after.length + 1))

/-- `moveLeft`. -/
def moveLeft (s : BufState) : BufState × String :=
  if s.cursorPos = 0 then (s, "")
  else ({ s with cursorPos := s.cursorPos - 1 }, "\x1b[D")

/-- `moveRight`. -/
def moveRight (s : BufState) : BufState × String :=
  if s.cursorPos ≥ s.buffer.length then (s, "")
  else ({ s with cursorPos := s.cursorPos + 1 }, "\x1b[C")

/-- `moveToStart` (Home / Ctrl+A). -/
def moveToStart (s : BufState) : BufState × String :=
  if s.cursorPos = 0 then (s, "")
  else ({ s with cursorPos := 0 }, escD s.cursorPos)

/-- `moveToEnd` (End / Ctrl+E). -/
def moveToEnd (s : BufState) : BufState × String :=
  if s.cursorPos ≥ s.buffer.length then (s, "")
  else ({ s with cursorPos := s.buffer.length },
    escC (s.buffer.length - s.cursorPos))

/-- `killToEnd` (Ctrl+K). -/
def killToEnd (s : BufState) : BufState × String :=
  if s.cursorPos ≥ s.buffer.length then (s, "")
  else
    let killed := s.buffer.length - s.cursorPos
    ({ s with buffer := s.buffer.take s.cursorPos },
      spaces killed ++ escD killed)

/-- `killToStart` (Ctrl+U). -/
def killToStart (s : BufState) : BufState × String :=
  if s.cursorPos = 0 then (s, "")
  else
    let killed := s.cursorPos
    let newBuffer := s.buffer.drop s.cursorPos
    ({ s with buffer := newBuffer, cursorPos := 0 },
      escD killed ++ String.mk newBuffer ++ spaces killed ++
        escD (newBuffer.length + killed))

/-- First while loop of `deleteWordBack`:
`while (newPos > 0 && buffer[newPos-1] === ' ') newPos--`. -/
def skipSpacesBack (buf : List Char) : Nat → Nat
  | 0 => 0
  | Nat.succ n => if buf.get? n = some ' ' then skipSpacesBack buf n else Nat.succ n

/-- Second while loop of `deleteWordBack`:
`while (newPos > 0 && buffer[newPos-1] !== ' ') newPos--` (an out-of-range
access yields `undefined`, which is `!== ' '`). -/
def skipNonSpacesBack (buf : List Char) : Nat → Nat
  | 0 => 0
  | Nat.succ n =>
    if buf.get? n ≠ some ' ' then skipNonSpacesBack buf n else Nat.succ n

/-- `deleteWordBack` (Ctrl+W). -/
def deleteWordBack (s : BufState) : BufState × String :=
  if s.cursorPos = 0 then (s, "")
  else
    let before := s.buffer.take s.cursorPos
    let after := s.buffer.drop s.cursorPos
    let newPos := skipNonSpacesBack s.buffer
      (skipSpacesBack s.buffer (s.cursorPos - 1))
    let deleted := s.cursorPos - newPos
    ({ s with buffer := before.take newPos ++ after, cursorPos := newPos },
      escD deleted ++ String.mk after ++ spaces deleted ++
        escD (after.length + deleted))

/-- `replaceLine`: clear the displayed line and write the new content; the
buffer becomes the new content with the cursor at its end. -/
def replaceLine (s : BufState) (newContent : List Char) : BufState × String :=
  let clearLen := s.buffer.length
  let out := (if s.cursorPos > 0 then escD s.cursorPos else "") ++
    spaces clearLen ++ (if clearLen > 0 then escD clearLen else "") ++
    String.mk newContent
  ({ s with buffer := newContent, cursorPos := newContent.length }, out)

/-- `historyUp`. -/
def historyUp (s : BufState) : BufState × String :=
  if s.history.length = 0 then (s, "")
  else if s.historyIndex = -1 then
    let idx : Int := (s.history.length : Int) - 1
    replaceLine { s with tempBuffer := s.buffer, historyIndex := idx }
      (s.history.getD idx.toNat [])
  else if s.historyIndex > 0 then
    let idx := s.historyIndex - 1
    replaceLine { s with historyIndex := idx } (s.history.getD idx.toNat [])
  else (s, "")

/-- `historyDown`. -/
def historyDown (s : BufState) : BufState × String :=
  if s.historyIndex = -1 then (s, "")
  else if s.historyIndex < (s.history.length : Int) - 1 then
    let idx := s.historyIndex + 1
    replaceLine { s with historyIndex := idx } (s.history.getD idx.toNat [])
  else
    replaceLine { s with historyIndex := -1 } s.tempBuffer

/-- Shrinking loop of `findCommonPrefix`:
`while (!strings[i].startsWith(prefix)) prefix = prefix.slice(0, -1)`. -/
def shrinkToPre (s : List Char) (pre : List Char) : List Char :=
  if pre.isPrefixOf s then pre else shrinkToPre s pre.dropLast
termination_by pre.length
decreasing_by
  rename_i h
  cases pre with
  | nil => simp [List.isPrefixOf] at h
  | cons a t =>
    simp only [List.dropLast, List.length_cons]
    cases t with
    | nil => simp
    | cons b t' =>
      have := List.length_dropLast (a :: b :: t')
      simp only [List.length_dropLast, List.length_cons] at this ⊢
      omega

/-- `findCommonPrefix`. -/
def findCommonPre : List (List Char) → List Char
  | [] => []
  | s0 :: rest => rest.foldl (fun pre s => shrinkToPre s pre) s0

/-- `tabComplete`, with the installed completion provider passed in as `cb`.
The candidate word is the final whitespace-split fragment before the cursor. -/
def tabComplete (s : BufState) (cb : List Char → List (List Char)) :
    BufState × String :=
  let beforeCursor := s.buffer.take s.cursorPos
  let tokens := splitWsGo beforeCursor [] [] false
  let frag := (tokens.getLast?).getD []
  let cands := cb frag
  if cands.length = 0 then (s, "")
  else if cands.length = 1 then
    let completion := (cands.headD [])
    let toAdd := completion.drop frag.length
    let suffix := if strEndsWith (String.mk completion) "/" then "" else " "
    insert s (toAdd ++ suffix.data)
  else
    let commonPre := findCommonPre cands
    if commonPre.length > frag.length then
      insert s (commonPre.drop frag.length)
    else
      (s, "\r\n" ++ "  ".intercalate (cands.map String.mk) ++ "\r\n")

/-- `submit` (Enter): push the trimmed buffer onto the history when non-empty
and reset the line state; returns the command string. -/
def submit (s : BufState) : BufState × String :=
  let command := trimChars s.buffer
  let history' := if command ≠ "" then s.history ++ [command.data] else s.history
  ({ s with buffer := [], cursorPos := 0, historyIndex := -1,
            history := history' }, command)

/-- `clear` (used by Ctrl+C handling in the engine). -/
def clear (s : BufState) : BufState × String :=
  ({ s with buffer := [], cursorPos := 0, historyIndex := -1 }, "")

/-- `insertText` (single-line paste): insert character by character, skipping
newlines and carriage returns. -/
def insertText (s : BufState) (text : List Char) : BufState × String :=
  text.foldl
    (fun (acc : BufState × String) ch =>
      if ch = '\n' ∨ ch = '\r' then acc
      else
        let (s', out) := insert acc.1 [ch]
        (s', acc.2 ++ out))
    (s, "")

end InputBuffer

/-- One user-visible `InputBuffer` operation.  The tab-completion op carries
the externally installed provider; insert carries the inserted text (one
character for a keystroke), `insertText` a pasted line. -/
inductive BufOp where
  | insert (c : List Char)
  | backspace
  | delete
  | moveLeft
  | moveRight
  | moveToStart
  | moveToEnd
  | killToEnd
  | killToStart
  | deleteWordBack
  | historyUp
  | historyDown
  | tabComplete (cb : List Char → List (List Char))
  | submit
  | clear
  | insertText (t : List Char)

/-- Dispatch an operation to the corresponding `InputBuffer` method. -/
def stepOp (s : BufState) : BufOp → BufState × String
  | .insert c => InputBuffer.insert s c
  | .backspace => InputBuffer.backspace s
  | .delete => InputBuffer.delete s
  | .moveLeft => InputBuffer.moveLeft s
  | .moveRight => InputBuffer.moveRight s
  | .moveToStart => InputBuffer.moveToStart s
  | .moveToEnd => InputBuffer.moveToEnd s
  | .killToEnd => InputBuffer.killToEnd s
  | .killToStart => InputBuffer.killToStart s
  | .deleteWordBack => InputBuffer.deleteWordBack s
  | .historyUp => InputBuffer.historyUp s
  | .historyDown => InputBuffer.historyDown s
  | .tabComplete cb => InputBuffer.tabComplete s cb
  | .submit => InputBuffer.submit s
  | .clear => InputBuffer.clear s
  | .insertText t => InputBuffer.insertText s t

/-- Buffer state after a sequence of operations from the initial state. -/
def runOps (ops : List BufOp) : BufState :=
  ops.foldl (fun s op => (stepOp s op).1) initBuf

/-- Cursor-bounds invariant `0 ≤ cursor ≤ |buffer|` (the lower bound is
inherent in `Nat`). -/
def cursorInv (s : BufState) : Prop := s.cursorPos ≤ s.buffer.length

/-! ## Keystroke recorder and burst detector (`KeystrokeRecorder.ts`)

`Date.now()` is supplied as an explicit `now : Int` argument; the period flush
timer only drains the event list through the sink and is not modelled. -/

structure KeyMeta where
  shift : Bool
  ctrl : Bool
  alt : Bool
  meta : Bool
  deriving DecidableEq, Repr

inductive DetectedBy where
  | clipboardApi
  | burst
  | both
  deriving DecidableEq, Repr

inductive SessionEvent where
  | key (key : String) (timestamp : Int) (meta : KeyMeta)
  | paste (content : String) (timestamp : Int) (detectedBy : DetectedBy)
  | output (content : String) (timestamp : Int)
  | command (raw : String) (timestamp : Int) (exitCode : Nat)
  | objectiveComplete (objectiveId : String) (timestamp : Int)
  | levelAdvance (level : Nat) (timestamp : Int)
  | hintUsed (hintId : String) (timestamp : Int)
  | focusChange (focused : Bool) (timestamp : Int)
  | resize (cols rows : Nat) (timestamp : Int)
  deriving DecidableEq, Repr

/-- Backward scan of `BurstDetector.addKeystroke` over the reversed (newest
first) timestamp window: count of consecutive gaps `≤ 50` ms starting from the
newest entry, together with the timestamp at the start (oldest end) of the
run.  The empty case is unreachable (the caller checks the window holds at
least `BURST_MIN_CHARS` entries). -/
def burstRun : List Int → Nat × Int
  | [] => (0, 0)
  | [x] => (1, x)
  | x :: y :: rest =>
    if x - y ≤ 50 then
      let (c, s) := burstRun (y :: rest)
      (c + 1, s)
    else (1, x)

/-- `BurstDetector.addKeystroke`: push the timestamp, drop entries older than
5 s, and when the window holds at least 30 entries whose trailing run of
consecutive gaps `≤ 50` ms is at least 30 long, clear the window and report
`{count, duration}`. -/
def addKeystroke (timestamps : List Int) (timestamp : Int) :
    List Int × Option (Nat × Int) :=
  let cutoff := timestamp - 5000
  let kept := (timestamps ++ [timestamp]).filter (fun t => t > cutoff)
  if kept.length < 30 then (kept, none)
  else
    let (burstCount, burstStartTs) := burstRun kept.reverse
    if burstCount ≥ 30 then ([], some (burstCount, timestamp - burstStartTs))
    else (kept, none)

/-- `BurstDetector.isInBurst`: average of the last five gaps below the
threshold. -/
def isInBurst (timestamps : List Int) : Bool :=
  if timestamps.length < 5 then false
  else
    let recent := timestamps.drop (timestamps.length - 5)
    ((recent.getD 4 0 - recent.getD 0 0) / 4) < 50

structure RecState where
  events : List SessionEvent
  burstTimestamps : List Int

/-- Freshly constructed recorder. -/
def initRec : RecState := { events := [], burstTimestamps := [] }

/-- `KeystrokeRecorder.recordKey`: append the key event, then run the burst
detector and, on detection, append the synthesised paste event (both
`Date.now()` calls happen within the same handler invocation and are modelled
by the same `now`). -/
def recordKey (st : RecState) (key : String) (meta : KeyMeta) (now : Int) :
    RecState :=
  let events1 := st.events ++ [SessionEvent.key key now meta]
  let (ts', res) := addKeystroke st.burstTimestamps now
  match res with
  | some (count, duration) =>
    { events := events1 ++
        [SessionEvent.paste
          ("[burst detected: " ++ toString count ++ " chars in " ++
            toString duration ++ "ms]") now .burst],
      burstTimestamps := ts' }
  | none => { events := events1, burstTimestamps := ts' }

/-- `KeystrokeRecorder.recordPaste` (clipboard-API paste). -/
def recordPaste (st : RecState) (content : String) (now : Int) : RecState :=
  { st with events := st.events ++
      [SessionEvent.paste content now
        (if isInBurst st.burstTimestamps then .both else .clipboardApi)] }

/-- Selector for synthesised or clipboard paste events. -/
def isPasteEvent : SessionEvent → Bool
  | .paste _ _ _ => true
  | _ => false

/-! ## Concrete scenario fixtures -/

/-- 35 printable keystrokes fed to a fresh recorder with 20 ms inter-arrival
gaps (timestamps 100000, 100020, …, 100680). -/
def burstFeed : RecState :=
  (List.range 35).foldl
    (fun st i =>
      recordKey st "a" ⟨false, false, false, false⟩ (100000 + 20 * (i : Int)))
    initRec

/-- A filesystem whose only entry is the self-referential symlink
`/a -> /a`. -/
def loopFS : FSNode :=
  .mk "/" .directory none none (some "drwxr-xr-x")
    (some (.cons "a" (.mk "a" .symlink none (some "/a") none none) .nil))

end Shell

namespace Shell

set_option maxRecDepth 100000

/-! ## Path and tree lemmas -/

theorem get_set_self : ∀ (es : FSEntries) (k : String) (v : FSNode),
    (es.set k v).get k = some v
  | .nil, k, v => by simp [FSEntries.set, FSEntries.get]
  | .cons k' v' rest, k, v => by
    by_cases h : k' = k
    · simp [FSEntries.set, FSEntries.get, h]
    · simp [FSEntries.set, FSEntries.get, h, get_set_self rest k v]

theorem get_set_other : ∀ (es : FSEntries) (k q : String) (v : FSNode),
    q ≠ k → (es.set k v).get q = es.get q
  | .nil, k, q, v, h => by simp [FSEntries.set, FSEntries.get, Ne.symm h]
  | .cons k' v' rest, k, q, v, h => by
    by_cases h' : k' = k
    · subst h'
      simp [FSEntries.set, FSEntries.get, Ne.symm h]
    · simp only [FSEntries.set, if_neg h']
      by_cases h'' : k' = q
      · simp [FSEntries.get, h'']
      · simp [FSEntries.get, h'', get_set_other rest k q v h]

theorem get_del_other : ∀ (es : FSEntries) (k q : String), q ≠ k →
    (es.del k).get q = es.get q
  | .nil, k, q, h => by simp [FSEntries.del]
  | .cons k' v' rest, k, q, h => by
    by_cases h' : k' = k
    · subst h'
      simp [FSEntries.del, FSEntries.get, Ne.symm h]
    · simp only [FSEntries.del, if_neg h']
      by_cases h'' : k' = q
      · simp [FSEntries.get, h'']
      · simp [FSEntries.get, h'', get_del_other rest k q h]

theorem get_of_hasKey_false (es : FSEntries) (k : String)
    (h : es.hasKey k = false) : es.get k = none := by
  unfold FSEntries.hasKey at h
  cases hg : es.get k with
  | none => rfl
  | some v => rw [hg] at h; simp at h

theorem get_del_self : ∀ (es : FSEntries) (k : String), nodupKeys es = true →
    (es.del k).get k = none
  | .nil, k, _ => by simp [FSEntries.del, FSEntries.get]
  | .cons k' v' rest, k, h => by
    rw [nodupKeys] at h
    simp only [Bool.and_eq_true, Bool.not_eq_true'] at h
    by_cases h' : k' = k
    · subst h'
      simp only [FSEntries.del, if_pos rfl]
      exact get_of_hasKey_false rest k' h.1
    · simp only [FSEntries.del, if_neg h', FSEntries.get, if_neg h']
      exact get_del_self rest k h.2

theorem getAt_append : ∀ (a b : List String) (r : FSNode),
    VFS.getAt r (a ++ b) = (VFS.getAt r a).bind (fun n => VFS.getAt n b)
  | [], b, r => by simp [VFS.getAt]
  | p :: ps, b, r => by
    simp only [List.cons_append, VFS.getAt]
    cases hc : r.children with
    | none => simp
    | some es =>
      cases hg : es.get p with
      | none => simp [hg]
      | some child => simpa [hg] using getAt_append ps b child

theorem getAt_single (cur : FSNode) (p : String) :
    VFS.getAt cur [p] = (cur.children).bind (fun es => es.get p) := by
  simp only [VFS.getAt]
  cases hc : cur.children with
  | none => simp
  | some es =>
    cases hg : es.get p with
    | none => simp [hg]
    | some child => simp [hg]

theorem getAt_setAt : ∀ (A : List String) (root D' : FSNode) (b : List String),
    (VFS.getAt root A).isSome →
    VFS.getAt (VFS.setAt root A D') b =
      if A.isPrefixOf b then VFS.getAt D' (b.drop A.length)
      else if b.isPrefixOf A then
        (VFS.getAt root b).map (fun n => VFS.setAt n (A.drop b.length) D')
      else VFS.getAt root b
  | [], root, D', b, _ => by
    simp [VFS.setAt, List.isPrefixOf]
  | p :: A', root, D', b, hsome => by
    have hch : ∃ es child, root.children = some es ∧ es.get p = some child ∧
        (VFS.getAt child A').isSome := by
      simp only [VFS.getAt] at hsome
      cases hc : root.children with
      | none => simp [hc] at hsome
      | some es =>
        simp only [hc] at hsome
        cases hg : es.get p with
        | none => simp [hg] at hsome
        | some child =>
          simp only [hg] at hsome
          exact ⟨es, child, rfl, hg, hsome⟩
    obtain ⟨es, child, hc, hg, hsub⟩ := hch
    have hset : VFS.setAt root (p :: A') D' =
        root.withChildren (some (es.set p (VFS.setAt child A' D'))) := by
      simp [VFS.setAt, hc, hg]
    have hwc : (root.withChildren
        (some (es.set p (VFS.setAt child A' D')))).children =
        some (es.set p (VFS.setAt child A' D')) := by
      cases root with
      | mk nm t c tg pm ch => rfl
    cases b with
    | nil =>
      have h1 : (p :: A').isPrefixOf ([] : List String) = false := rfl
      have h2 : ([] : List String).isPrefixOf (p :: A') = true := rfl
      simp [h1, h2, VFS.getAt, hset]
    | cons q b' =>
      by_cases hq : q = p
      · subst hq
        have hL : VFS.getAt (VFS.setAt root (q :: A') D') (q :: b') =
            VFS.getAt (VFS.setAt child A' D') b' := by
          rw [hset]
          simp only [VFS.getAt, hwc, get_set_self]
        rw [hL, getAt_setAt A' child D' b' hsub]
        have hpre1 : (q :: A').isPrefixOf (q :: b') = A'.isPrefixOf b' := by
          simp [List.isPrefixOf]
        have hpre2 : (q :: b').isPrefixOf (q :: A') = b'.isPrefixOf A' := by
          simp [List.isPrefixOf]
        have hroot : VFS.getAt root (q :: b') = VFS.getAt child b' := by
          simp [VFS.getAt, hc, hg]
        rw [hpre1, hpre2, hroot]
        simp only [List.length_cons, List.drop_succ_cons]
      · have hbeq1 : (p == q) = false := beq_eq_false_iff_ne.mpr (Ne.symm hq)
        have hbeq2 : (q == p) = false := beq_eq_false_iff_ne.mpr hq
        have hL : VFS.getAt (VFS.setAt root (p :: A') D') (q :: b') =
            VFS.getAt root (q :: b') := by
          rw [hset]
          simp only [VFS.getAt, hwc, hc, get_set_other es p q _ hq]
        rw [hL]
        have hpre1 : (p :: A').isPrefixOf (q :: b') = false := by
          simp [List.isPrefixOf, hbeq1]
        have hpre2 : (q :: b').isPrefixOf (p :: A') = false := by
          simp [List.isPrefixOf, hbeq2]
        rw [hpre1, hpre2]
        simp

theorem splitOnChar_no_sep (sep : Char) :
    ∀ (l cur : List Char), (∀ c ∈ l, c ≠ sep) →
      splitOnChar sep l cur = [cur.reverse ++ l]
  | [], cur, _ => by simp [splitOnChar]
  | c :: rest, cur, h => by
    have hc : c ≠ sep := h c (by simp)
    simp only [splitOnChar, if_neg hc]
    rw [splitOnChar_no_sep sep rest (c :: cur) (fun x hx => h x (by simp [hx]))]
    simp

theorem splitOnChar_skip (sep : Char) :
    ∀ (pre l cur : List Char), (∀ c ∈ pre, c ≠ sep) →
      splitOnChar sep (pre ++ l) cur = splitOnChar sep l (pre.reverse ++ cur)
  | [], l, cur, _ => by simp
  | c :: rest, l, cur, h => by
    have hc : c ≠ sep := h c (by simp)
    simp only [List.cons_append, splitOnChar, if_neg hc, List.append_eq]
    rw [splitOnChar_skip sep rest l (c :: cur) (fun x hx => h x (by simp [hx]))]
    simp

theorem splitOnChar_join_good :
    ∀ ps : List String, ps ≠ [] → (∀ x ∈ ps, ∀ c ∈ x.data, c ≠ '/') →
      splitOnChar '/' (joinSlash ps).data [] = ps.map String.data
  | [], h, _ => absurd rfl h
  | [p], _, hg => by
    simp only [joinSlash, List.map]
    rw [splitOnChar_no_sep '/' p.data [] (hg p (by simp))]
    simp
  | p :: q :: rest, _, hg => by
    have hj : (joinSlash (p :: q :: rest)).data =
        p.data ++ ('/' :: (joinSlash (q :: rest)).data) := by
      show (p ++ "/" ++ joinSlash (q :: rest)).data = _
      have h1 : ∀ s t : String, (s ++ t).data = s.data ++ t.data :=
        fun s t => rfl
      rw [h1, h1]
      simp
    rw [hj, splitOnChar_skip '/' p.data ('/' :: (joinSlash (q :: rest)).data)
      [] (hg p (by simp))]
    simp only [splitOnChar, if_pos rfl]
    rw [splitOnChar_join_good (q :: rest) (by simp)
      (fun x hx => hg x (by simp [hx]))]
    simp

theorem splitSlash_slash_join (ps : List String)
    (h : ∀ x ∈ ps, goodPart x = true) : splitSlash ("/" ++ joinSlash ps) = ps := by
  cases ps with
  | nil => rfl
  | cons p rest =>
    have hd : ("/" ++ joinSlash (p :: rest)).data =
        '/' :: (joinSlash (p :: rest)).data := rfl
    have hsp : splitOnChar '/' ('/' :: (joinSlash (p :: rest)).data) [] =
        [] :: splitOnChar '/' (joinSlash (p :: rest)).data [] := by
      simp [splitOnChar]
    unfold splitSlash
    rw [hd, hsp, splitOnChar_join_good (p :: rest) (by simp)
      (fun x hx c hc => by
        have hgx := h x hx
        simp only [goodPart, Bool.and_eq_true, List.all_eq_true,
          decide_eq_true_eq] at hgx
        exact hgx.2 c hc)]
    rw [List.map_cons]
    have hmk : List.map String.mk (List.map String.data (p :: rest)) =
        p :: rest := by
      rw [List.map_map]
      have hcomp : (String.mk ∘ String.data) = id := funext (fun s => rfl)
      rw [hcomp, List.map_id]
    rw [hmk, show String.mk [] = "" from rfl]
    rw [List.filter_cons]
    have hemp : (decide (("" : String) ≠ "")) = false := by decide
    rw [hemp]
    simp only [Bool.false_eq_true, if_false]
    apply List.filter_eq_self.mpr
    intro a ha
    have hga := h a ha
    simp only [goodPart, Bool.and_eq_true, bne_iff_ne, ne_eq] at hga
    simp [hga.1]



theorem splitOnChar_mem_no_sep (sep : Char) :
    ∀ (l cur piece : List Char), (∀ c ∈ cur, c ≠ sep) →
      piece ∈ splitOnChar sep l cur → ∀ c ∈ piece, c ≠ sep
  | [], cur, piece, hcur, hmem => by
    simp only [splitOnChar, List.mem_singleton] at hmem
    subst hmem
    intro c hc
    exact hcur c (by simpa using hc)
  | a :: rest, cur, piece, hcur, hmem => by
    by_cases ha : a = sep
    · rw [splitOnChar, if_pos ha] at hmem
      rcases List.mem_cons.mp hmem with hm | hm
      · subst hm
        intro c hc
        exact hcur c (by simpa using hc)
      · exact splitOnChar_mem_no_sep sep rest [] piece (by simp) hm
    · rw [splitOnChar, if_neg ha] at hmem
      refine splitOnChar_mem_no_sep sep rest (a :: cur) piece ?_ hmem
      intro c hc
      rcases List.mem_cons.mp hc with h | h
      · subst h; exact ha
      · exact hcur c h

theorem splitSlash_good (s : String) : ∀ x ∈ splitSlash s, goodPart x = true := by
  intro x hx
  unfold splitSlash at hx
  rcases List.mem_filter.mp hx with ⟨hx1, hx2⟩
  rcases List.mem_map.mp hx1 with ⟨piece, hpmem, hpx⟩
  have hns := splitOnChar_mem_no_sep '/' s.data [] piece (by simp) hpmem
  simp only [goodPart, Bool.and_eq_true, bne_iff_ne, ne_eq, List.all_eq_true,
    decide_eq_true_eq]
  constructor
  · simpa using hx2
  · intro c hc
    exact hns c (by rw [← hpx] at hc; exact hc)

theorem resolveParts_fold_good :
    ∀ (inp acc : List String), (∀ x ∈ acc, goodPart x = true) →
      (∀ x ∈ inp, goodPart x = true) →
      ∀ x ∈ inp.foldl
        (fun resolved part =>
          if part = "." then resolved
          else if part = ".." then resolved.dropLast
          else resolved ++ [part]) acc, goodPart x = true
  | [], acc, hacc, _, x => fun hx => hacc x hx
  | p :: rest, acc, hacc, hinp, x => by
    intro hx
    simp only [List.foldl] at hx
    by_cases h1 : p = "."
    · rw [if_pos h1] at hx
      exact resolveParts_fold_good rest acc hacc
        (fun y hy => hinp y (by simp [hy])) x hx
    · rw [if_neg h1] at hx
      by_cases h2 : p = ".."
      · rw [if_pos h2] at hx
        refine resolveParts_fold_good rest acc.dropLast ?_
          (fun y hy => hinp y (by simp [hy])) x hx
        intro y hy
        exact hacc y (List.dropLast_subset _ hy)
      · rw [if_neg h2] at hx
        refine resolveParts_fold_good rest (acc ++ [p]) ?_
          (fun y hy => hinp y (by simp [hy])) x hx
        intro y hy
        rcases List.mem_append.mp hy with h | h
        · exact hacc y h
        · rw [List.mem_singleton.mp h]
          exact hinp p (by simp)

theorem resolveParts_good (path cwd : String) :
    ∀ x ∈ VFS.resolveParts path cwd, goodPart x = true := by
  unfold VFS.resolveParts
  refine resolveParts_fold_good (splitSlash path) _ ?_ (splitSlash_good path)
  split
  · simp
  · exact splitSlash_good cwd

theorem resolveParts_fold_canon :
    ∀ (inp acc : List String), (∀ x ∈ acc, canonPart x = true) →
      (∀ x ∈ inp, goodPart x = true) →
      ∀ x ∈ inp.foldl
        (fun resolved part =>
          if part = "." then resolved
          else if part = ".." then resolved.dropLast
          else resolved ++ [part]) acc, canonPart x = true
  | [], acc, hacc, _, x => fun hx => hacc x hx
  | p :: rest, acc, hacc, hinp, x => by
    intro hx
    simp only [List.foldl] at hx
    by_cases h1 : p = "."
    · rw [if_pos h1] at hx
      exact resolveParts_fold_canon rest acc hacc
        (fun y hy => hinp y (by simp [hy])) x hx
    · rw [if_neg h1] at hx
      by_cases h2 : p = ".."
      · rw [if_pos h2] at hx
        refine resolveParts_fold_canon rest acc.dropLast ?_
          (fun y hy => hinp y (by simp [hy])) x hx
        intro y hy
        exact hacc y (List.dropLast_subset _ hy)
      · rw [if_neg h2] at hx
        refine resolveParts_fold_canon rest (acc ++ [p]) ?_
          (fun y hy => hinp y (by simp [hy])) x hx
        intro y hy
        rcases List.mem_append.mp hy with h | h
        · exact hacc y h
        · rw [List.mem_singleton.mp h]
          simp only [canonPart, Bool.and_eq_true, bne_iff_ne, ne_eq]
          exact ⟨⟨hinp p (by simp), h1⟩, h2⟩

theorem splitSlash_root : splitSlash "/" = [] := rfl

theorem resolveParts_root_canon (path : String) :
    ∀ x ∈ VFS.resolveParts path "/", canonPart x = true := by
  unfold VFS.resolveParts
  refine resolveParts_fold_canon (splitSlash path) _ ?_ (splitSlash_good path)
  split
  · simp
  · rw [splitSlash_root]
    simp

theorem splitSlash_resolvePath (path cwd : String) :
    splitSlash (VFS.resolvePath path cwd) = VFS.resolveParts path cwd := by
  unfold VFS.resolvePath
  exact splitSlash_slash_join _ (resolveParts_good path cwd)

theorem resolveParts_fold_push :
    ∀ (qs acc : List String), (∀ x ∈ qs, canonPart x = true) →
      qs.foldl
        (fun resolved part =>
          if part = "." then resolved
          else if part = ".." then resolved.dropLast
          else resolved ++ [part]) acc = acc ++ qs
  | [], acc, _ => by simp
  | q :: rest, acc, h => by
    have hq := h q (by simp)
    simp only [canonPart, Bool.and_eq_true, bne_iff_ne, ne_eq] at hq
    simp only [List.foldl, if_neg hq.1.2, if_neg hq.2]
    rw [resolveParts_fold_push rest (acc ++ [q])
      (fun y hy => h y (by simp [hy]))]
    simp

theorem strStartsWith_slash_append (s : String) :
    strStartsWith ("/" ++ s) "/" = true := by
  unfold strStartsWith
  have : ("/" ++ s).data = '/' :: s.data := rfl
  rw [this]
  simp [List.isPrefixOf]

theorem resolveParts_of_canon (qs : List String)
    (h : ∀ x ∈ qs, canonPart x = true) :
    VFS.resolveParts ("/" ++ joinSlash qs) "/" = qs := by
  unfold VFS.resolveParts
  rw [strStartsWith_slash_append]
  simp only [if_pos rfl]
  rw [splitSlash_slash_join qs (fun x hx => by
    have := h x hx
    simp only [canonPart, Bool.and_eq_true] at this
    exact this.1.1)]
  have := resolveParts_fold_push qs [] h
  simpa using this

theorem resolvePath_idem_root (path : String) :
    VFS.resolveParts (VFS.resolvePath path "/") "/" =
      VFS.resolveParts path "/" := by
  unfold VFS.resolvePath
  exact resolveParts_of_canon _ (resolveParts_root_canon path)



/-! ## Claim theorems -/

/-- Claim C1, counterexample.  The claim states that executing
`false && echo should-not-appear ; true && echo yes` produces output
`"yes\n"` with exit code 0.  On the code it does not: the executor's operator
check executes `break` when an `&&` follows a failing command, which
terminates the whole pipeline, so the commands after the `;` never run. -/
theorem C1_counterexample :
    (execute registryGet "false && echo should-not-appear ; true && echo yes"
      initCtx).1.output ≠ "yes\n" ∧
    (execute registryGet "false && echo should-not-appear ; true && echo yes"
      initCtx).1.exitCode ≠ 0 := by
  decide

/-- Claim C1, amended.  Executing
`false && echo should-not-appear ; true && echo yes` produces empty output
and exit code 1: the `&&` after the failing `false` terminates the entire
pipeline (the skip `break`s out of the command loop), so neither
`echo should-not-appear` nor the commands after the `;` are executed, and the
result is `false`'s own result. -/
theorem C1_amended :
    (execute registryGet "false && echo should-not-appear ; true && echo yes"
      initCtx).1 = ⟨"", 1⟩ := by
  decide

/-- Claim C2 (code bug).  The claim states that a `-abc` token is parsed as
coalesced short flags `a`, `b`, `c`.  The source's short-flag branch is
guarded by `token.startsWith('-') && token.length > 1 && !token.startsWith('-')`,
whose first and third conjuncts are contradictory, so the branch (whose own
comments say it handles coalesced single-character flags) is dead code: the
token falls through to `args` and no flag is set. -/
theorem C2_short_flag_dead :
    parseCommand "ls -abc" =
      { command := "ls", args := ["-abc"], rawArgs := "-abc", flags := [] } := by
  decide

/-- Claim C3 (code bug).  The claim states `echo "hello world" | wc -w`
yields output `2` with exit code 0.  Because the parser's short-flag branch is
dead (see C2), `-w` lands in `wc`'s `args`; `handleWc` therefore treats `-w`
as a file name, ignores the piped stdin, and fails with a not-found error and
exit code 1. -/
theorem C3_wc_flag_in_args :
    (execute registryGet "echo \"hello world\" | wc -w" initCtx).1 =
      ⟨"wc: -w: No such file or directory", 1⟩ := by
  decide

/-- Claim C7.  `resolve` is total by construction (the embedding's symlink
`gas` is `21 - depth` and the walk is structurally recursive in it, mirroring
the source's `depth > 20` entry check), and a resolution that would follow
symlinks past the cap returns `null` instead of diverging: on the cyclic
filesystem `/a -> /a` the walk returns `none` at every remaining depth, and in
particular the top-level `resolve` (which the source always enters at depth
0) returns `none`. -/
theorem C7_resolve_cycle_cap :
    (∀ gas, VFS.walkGas loopFS gas ["a"] = none) ∧
    VFS.resolve loopFS "/a" "/" = none ∧
    VFS.resolve loopFS "/a/b" "/" = none := by
  refine ⟨?_, rfl, rfl⟩
  intro gas
  induction gas with
  | zero => rfl
  | succ g ih =>
    have h : VFS.walkGas loopFS (g + 1) ["a"] =
        (match VFS.walkGas loopFS g ["a"] with
         | none => none
         | some tAddr => VFS.walkLoop loopFS (VFS.walkGas loopFS g) [] ["a"] tAddr) :=
      rfl
    rw [h, ih]

/-- Claim C8, counterexample.  The claim states that for an input with
consecutive operators the splitter emits an empty command in each vacant
position, so that the pipeline has exactly one more command than operators.
On the code, `splitPipeline` only pushes a segment when its trimmed text is
non-empty, so `echo a ;; echo b` parses to two commands with two operators. -/
theorem C8_counterexample :
    ¬((parse "echo a ;; echo b").commands.length =
        (parse "echo a ;; echo b").operators.length + 1) := by
  decide

/-- Claim C8, amended.  Trailing or consecutive pipeline operators are
tolerated by omitting the empty segments: the operators are still pushed, so
a parsed pipeline can have fewer commands than operators + 1
(`echo a ;; echo b` yields two commands and two `;`, `echo a &&` yields one
command and one `&&`), and no empty command is emitted for the vacant
positions.  Independently, the executor does collapse an empty command (which
arises for inputs whose only tokens are quote pairs) to a no-op with empty
output and exit code 0. -/
theorem C8_amended :
    (parse "echo a ;; echo b").commands =
      [parseCommand "echo a", parseCommand "echo b"] ∧
    (parse "echo a ;; echo b").operators = [";", ";"] ∧
    (parse "echo a &&").commands = [parseCommand "echo a"] ∧
    (parse "echo a &&").operators = ["&&"] ∧
    (∀ (reg : String → Option Handler) (args : List String) (rawArgs : String)
        (flags : List (String × FlagVal)) (inR : Option String)
        (outR : Option Redirect) (ctx : CommandContext) (stdin : Option String),
      executeCommand reg
        { command := "", args := args, rawArgs := rawArgs, flags := flags,
          inputRedirect := inR, outputRedirect := outR } ctx stdin =
        (⟨"", 0⟩, ctx)) := by
  refine ⟨by decide, by decide, by decide, by decide, ?_⟩
  intro reg args rawArgs flags inR outR ctx stdin
  rfl

/-- Claim C9.  Feeding 35 printable keystrokes with 20 ms inter-arrival gaps
to a fresh recorder synthesises exactly one paste event: it is appended right
after the 30th key event with `detected_by = burst` and content
`"[burst detected: 30 chars in 580ms]"` (which matches
`/\[burst detected: \d+ chars in \d+ms\]/`), and since the detector clears
its window on detection, the remaining five keystrokes synthesise no further
paste event — the final log holds the 35 key events plus the single paste. -/
theorem C9_burst_paste_once :
    burstFeed.events.filter isPasteEvent =
      [SessionEvent.paste "[burst detected: 30 chars in 580ms]" 100580
        .burst] ∧
    burstFeed.events.length = 36 := by
  decide

/-- Claim C4, counterexample.  The claim states that for every path `p` and
content `c`, after `write_file(p, c)` both `read_file(p) = c` and
`exists(p)` hold, with no precondition.  For `p = "/nosuchdir/x"` on the
engine's initial (empty) filesystem the parent directory does not resolve, so
`writeFile` returns `false` leaving the tree unchanged, and afterwards
`read_file` returns `null` and `exists` is `false`. -/
theorem C4_counterexample :
    (VFS.writeFile emptyRoot "/nosuchdir/x" "hi" "/").2 = false ∧
    VFS.readFile (VFS.writeFile emptyRoot "/nosuchdir/x" "hi" "/").1
      "/nosuchdir/x" "/" = none ∧
    VFS.existsPath (VFS.writeFile emptyRoot "/nosuchdir/x" "hi" "/").1
      "/nosuchdir/x" "/" = false := by
  decide

/-- Claim C5, counterexample.  The claim states that the snapshot round-trip
is the identity on every tree, preserving in particular every symlink target.
A symlink whose `target` is the empty string is dropped by `toJSON` (JS
truthiness: `if (node.target)`), so the round-trip returns a node with no
target at all. -/
theorem C5_counterexample :
    jsonToNode (nodeToJSON (FSNode.mk "l" .symlink none (some "") none none)) ≠
      FSNode.mk "l" .symlink none (some "") none none := by
  intro h
  have h0 : (jsonToNode (nodeToJSON
      (FSNode.mk "l" .symlink none (some "") none none))).target = none := rfl
  rw [h] at h0
  simp [FSNode.target] at h0

/-- Round-trip identity on clean nodes, by strong induction on the node
size (the nested children map is handled by an inner induction on the size of
the entries list). -/
theorem roundtripNodeAux :
    ∀ (k : Nat) (n : FSNode), sizeOf n = k → cleanNode n = true →
      jsonToNode (nodeToJSON n) = n := by
  intro k
  induction k using Nat.strong_induction_on with
  | _ k ih =>
    intro n hk hclean
    cases n with
    | mk name type content target permissions children =>
      have hes : ∀ (m : Nat) (es : FSEntries), sizeOf es = m → sizeOf es < k →
          cleanEntries es = true → jsonToEntries (entriesToJSON es) = es := by
        intro m
        induction m using Nat.strong_induction_on with
        | _ m ihm =>
          intro es hm hlt hcl
          cases es with
          | nil => rfl
          | cons key node rest =>
            rw [cleanEntries] at hcl
            simp only [Bool.and_eq_true] at hcl
            have hspec := FSEntries.cons.sizeOf_spec key node rest
            show FSEntries.cons key (jsonToNode (nodeToJSON node))
              (jsonToEntries (entriesToJSON rest)) = FSEntries.cons key node rest
            rw [ih (sizeOf node) (by omega) node rfl hcl.1,
              ihm (sizeOf rest) (by omega) rest rfl (by omega) hcl.2]
      rw [cleanNode.eq_def] at hclean
      simp only [Bool.and_eq_true] at hclean
      obtain ⟨⟨ht, hp⟩, hc⟩ := hclean
      have hszspec := FSNode.mk.sizeOf_spec name type content target permissions
        children
      cases children with
      | none =>
        cases target with
        | none =>
          cases permissions with
          | none => rfl
          | some p =>
            have hne : p ≠ "" := by simpa using hp
            show FSNode.mk name type content none
              (if p ≠ "" then some p else none) none =
              FSNode.mk name type content none (some p) none
            simp [hne]
        | some t =>
          have hne : t ≠ "" := by simpa using ht
          cases permissions with
          | none =>
            show FSNode.mk name type content
              (if t ≠ "" then some t else none) none none =
              FSNode.mk name type content (some t) none none
            simp [hne]
          | some p =>
            have hnep : p ≠ "" := by simpa using hp
            show FSNode.mk name type content
              (if t ≠ "" then some t else none)
              (if p ≠ "" then some p else none) none =
              FSNode.mk name type content (some t) (some p) none
            simp [hne, hnep]
      | some es =>
        have hszes : sizeOf es < k := by
          have h2 : sizeOf (some es) = 1 + sizeOf es := by simp
          omega
        have hces : cleanEntries es = true := by simpa using hc
        have hrt := hes (sizeOf es) es rfl hszes hces
        cases target with
        | none =>
          cases permissions with
          | none =>
            show FSNode.mk name type content none none
              (some (jsonToEntries (entriesToJSON es))) =
              FSNode.mk name type content none none (some es)
            rw [hrt]
          | some p =>
            have hnep : p ≠ "" := by simpa using hp
            show FSNode.mk name type content none
              (if p ≠ "" then some p else none)
              (some (jsonToEntries (entriesToJSON es))) =
              FSNode.mk name type content none (some p) (some es)
            rw [hrt]
            simp [hnep]
        | some t =>
          have hne : t ≠ "" := by simpa using ht
          cases permissions with
          | none =>
            show FSNode.mk name type content
              (if t ≠ "" then some t else none) none
              (some (jsonToEntries (entriesToJSON es))) =
              FSNode.mk name type content (some t) none (some es)
            rw [hrt]
            simp [hne]
          | some p =>
            have hnep : p ≠ "" := by simpa using hp
            show FSNode.mk name type content
              (if t ≠ "" then some t else none)
              (if p ≠ "" then some p else none)
              (some (jsonToEntries (entriesToJSON es))) =
              FSNode.mk name type content (some t) (some p) (some es)
            rw [hrt]
            simp [hne, hnep]
/-- Claim C5, amended.  For every VFS tree `T` in which no node carries an
empty-string symlink target or an empty-string permissions string,
`from_snapshot(to_snapshot(T))` is structurally equal to `T`: the round-trip
preserves every node's name, kind, content, target, permissions and children
map (the display-only `modified` timestamp is regenerated and is not part of
the snapshot format). -/
theorem C5_amended (T : FSNode) (h : cleanNode T = true) :
    jsonToNode (nodeToJSON T) = T :=
  roundtripNodeAux (sizeOf T) T rfl h

/-- A concrete clean tree witnessing `C5_amended`. -/
theorem C5_amended_witness :
    cleanNode (FSNode.mk "/" .directory none none (some "drwxr-xr-x")
      (some (.cons "f" (.mk "f" .file (some "x") none (some "-rw-r--r--") none)
        .nil))) = true ∧
    jsonToNode (nodeToJSON (FSNode.mk "/" .directory none none
      (some "drwxr-xr-x")
      (some (.cons "f" (.mk "f" .file (some "x") none (some "-rw-r--r--") none)
        .nil)))) =
      FSNode.mk "/" .directory none none (some "drwxr-xr-x")
        (some (.cons "f" (.mk "f" .file (some "x") none (some "-rw-r--r--") none)
          .nil)) :=
  ⟨rfl, C5_amended _ rfl⟩

theorem skipSpacesBack_le (buf : List Char) : ∀ n, InputBuffer.skipSpacesBack buf n ≤ n := by
  intro n
  induction n with
  | zero => simp [InputBuffer.skipSpacesBack]
  | succ m ih =>
    rw [InputBuffer.skipSpacesBack]
    split
    · omega
    · omega

theorem skipNonSpacesBack_le (buf : List Char) : ∀ n, InputBuffer.skipNonSpacesBack buf n ≤ n := by
  intro n
  induction n with
  | zero => simp [InputBuffer.skipNonSpacesBack]
  | succ m ih =>
    rw [InputBuffer.skipNonSpacesBack]
    split
    · omega
    · omega

theorem invInsert (s : BufState) (c : List Char) (h : cursorInv s) :
    cursorInv (InputBuffer.insert s c).1 := by
  unfold cursorInv at *
  simp only [InputBuffer.insert]
  split <;>
    simp only [List.length_append, List.length_take, List.length_drop] <;>
    omega

theorem invReplaceLine (s : BufState) (nc : List Char) :
    cursorInv (InputBuffer.replaceLine s nc).1 := by
  unfold cursorInv
  simp [InputBuffer.replaceLine]

theorem invStep (s : BufState) (op : BufOp) (h : cursorInv s) :
    cursorInv (stepOp s op).1 := by
  cases op with
  | insert c => exact invInsert s c h
  | backspace =>
    unfold cursorInv at *
    simp only [stepOp, InputBuffer.backspace]
    split
    · exact h
    · split <;>
        simp only [List.length_append, List.length_take, List.length_drop] <;>
        omega
  | delete =>
    unfold cursorInv at *
    simp only [stepOp, InputBuffer.delete]
    split
    · exact h
    · simp only [List.length_append, List.length_take, List.length_drop]
      omega
  | moveLeft =>
    unfold cursorInv at *
    simp only [stepOp, InputBuffer.moveLeft]
    split
    · exact h
    · show s.cursorPos - 1 ≤ s.buffer.length
      omega
  | moveRight =>
    unfold cursorInv at *
    simp only [stepOp, InputBuffer.moveRight]
    split
    · exact h
    · rename_i hlt
      show s.cursorPos + 1 ≤ s.buffer.length
      omega
  | moveToStart =>
    unfold cursorInv at *
    simp only [stepOp, InputBuffer.moveToStart]
    split
    · exact h
    · simp
  | moveToEnd =>
    unfold cursorInv at *
    simp only [stepOp, InputBuffer.moveToEnd]
    split
    · exact h
    · simp
  | killToEnd =>
    unfold cursorInv at *
    simp only [stepOp, InputBuffer.killToEnd]
    split
    · exact h
    · simp only [List.length_take]
      omega
  | killToStart =>
    unfold cursorInv at *
    simp only [stepOp, InputBuffer.killToStart]
    split
    · exact h
    · simp
  | deleteWordBack =>
    unfold cursorInv at *
    simp only [stepOp, InputBuffer.deleteWordBack]
    split
    · exact h
    · rename_i hne
      have h1 := skipSpacesBack_le s.buffer (s.cursorPos - 1)
      have h2 := skipNonSpacesBack_le s.buffer
        (InputBuffer.skipSpacesBack s.buffer (s.cursorPos - 1))
      simp only [List.length_append, List.length_take, List.length_drop]
      omega
  | historyUp =>
    simp only [stepOp, InputBuffer.historyUp]
    split
    · exact h
    · split
      · exact invReplaceLine _ _
      · split
        · exact invReplaceLine _ _
        · exact h
  | historyDown =>
    simp only [stepOp, InputBuffer.historyDown]
    split
    · exact h
    · split
      · exact invReplaceLine _ _
      · exact invReplaceLine _ _
  | tabComplete cb =>
    simp only [stepOp, InputBuffer.tabComplete]
    split
    · exact h
    · split
      · exact invInsert _ _ h
      · split
        · exact invInsert _ _ h
        · exact h
  | submit =>
    unfold cursorInv
    simp [stepOp, InputBuffer.submit]
  | clear =>
    unfold cursorInv
    simp [stepOp, InputBuffer.clear]
  | insertText t =>
    simp only [stepOp, InputBuffer.insertText]
    have : ∀ (l : List Char) (p : BufState × String), cursorInv p.1 →
        cursorInv (l.foldl
          (fun (acc : BufState × String) ch =>
            if ch = '\n' ∨ ch = '\r' then acc
            else
              let (s', out) := InputBuffer.insert acc.1 [ch]
              (s', acc.2 ++ out)) p).1 := by
      intro l
      induction l with
      | nil => intro p hp; exact hp
      | cons ch rest ihr =>
        intro p hp
        simp only [List.foldl]
        apply ihr
        split
        · exact hp
        · exact invInsert _ _ hp
    exact this t (s, "") h

/-- Claim C6.  After any finite sequence of InputBuffer operations (insert,
backspace, delete, cursor moves, home/end, kill-to-end, kill-to-start,
delete-word-back, history up/down, tab completion with an arbitrary
completion provider, paste insert, submit, clear) applied to the initial
buffer state, the invariant `0 ≤ cursor ≤ |buffer|` holds (the lower bound is
inherent in the `Nat` cursor). -/
theorem C6_cursor_invariant (ops : List BufOp) : cursorInv (runOps ops) := by
  unfold runOps
  have hfold : ∀ (l : List BufOp) (s : BufState), cursorInv s →
      cursorInv (l.foldl (fun s op => (stepOp s op).1) s) := by
    intro l
    induction l with
    | nil => intro s hs; exact hs
    | cons op rest ihr =>
      intro s hs
      exact ihr _ (invStep s op hs)
  exact hfold ops initBuf (by simp [cursorInv, initBuf])

end Shell

namespace Shell

theorem noSymEntries_get : ∀ (es : FSEntries) (p : String) (v : FSNode),
    noSymEntries es = true → es.get p = some v → noSymNode v = true
  | .nil, p, v, _, hg => by simp [FSEntries.get] at hg
  | .cons k n rest, p, v, hns, hg => by
    rw [noSymEntries] at hns
    simp only [Bool.and_eq_true] at hns
    rw [FSEntries.get] at hg
    by_cases hk : k = p
    · rw [if_pos hk] at hg
      cases hg
      exact hns.1
    · rw [if_neg hk] at hg
      exact noSymEntries_get rest p v hns.2 hg

theorem noSym_children (n : FSNode) (es : FSEntries)
    (hn : noSymNode n = true) (hc : n.children = some es) :
    noSymEntries es = true := by
  cases n with
  | mk nm t c tg pm ch =>
    rw [noSymNode.eq_def] at hn
    simp only [Bool.and_eq_true] at hn
    simp only [FSNode.children] at hc
    subst hc
    exact hn.2

theorem noSym_type (n : FSNode) (hn : noSymNode n = true) :
    n.type ≠ FSType.symlink := by
  cases n with
  | mk nm t c tg pm ch =>
    rw [noSymNode.eq_def] at hn
    simp only [Bool.and_eq_true, bne_iff_ne, ne_eq] at hn
    simpa [FSNode.type] using hn.1

theorem noSym_getAt : ∀ (a : List String) (root n : FSNode),
    noSymNode root = true → VFS.getAt root a = some n → noSymNode n = true
  | [], root, n, hr, hg => by
    rw [VFS.getAt] at hg
    cases hg
    exact hr
  | p :: ps, root, n, hr, hg => by
    rw [VFS.getAt] at hg
    cases hc : root.children with
    | none => simp [hc] at hg
    | some es =>
      simp only [hc] at hg
      cases hget : es.get p with
      | none => simp [hget] at hg
      | some child =>
        simp only [hget] at hg
        exact noSym_getAt ps child n
          (noSymEntries_get es p child (noSym_children root es hr hc) hget) hg

theorem walkLoop_noSym (root : FSNode) (hr : noSymNode root = true)
    (f : List String → Option (List String)) :
    ∀ (parts synPre addr : List String),
      VFS.walkLoop root f parts synPre addr = walkPure root parts addr
  | [], synPre, addr => rfl
  | p :: rest, synPre, addr => by
    cases hg : VFS.getAt root addr with
    | none =>
      rw [VFS.walkLoop, walkPure]
      simp [hg]
    | some cur =>
      by_cases ht : cur.type = FSType.directory
      · cases hc : cur.children with
        | none =>
          rw [VFS.walkLoop, walkPure]
          simp [hg, hc]
        | some es =>
          cases hget : es.get p with
          | none =>
            rw [VFS.walkLoop, walkPure]
            simp [hg, hc, hget]
          | some child =>
            have hchild : noSymNode child = true :=
              noSymEntries_get es p child
                (noSym_children cur es (noSym_getAt addr root cur hr hg) hc) hget
            have hty := noSym_type child hchild
            have hWP : walkPure root (p :: rest) addr =
                walkPure root rest (addr ++ [p]) := by
              rw [walkPure]
              simp [hg, ht, hc, hget]
            have hWL : VFS.walkLoop root f (p :: rest) synPre addr =
                VFS.walkLoop root f rest (synPre ++ [p]) (addr ++ [p]) := by
              rw [VFS.walkLoop]
              simp [hg, ht, hc, hget, hty]
            rw [hWP, hWL]
            exact walkLoop_noSym root hr f rest (synPre ++ [p]) (addr ++ [p])
      · rw [VFS.walkLoop, walkPure]
        simp [hg, ht]

theorem walkGas_noSym (root : FSNode) (hr : noSymNode root = true)
    (g : Nat) (parts : List String) :
    VFS.walkGas root (g + 1) parts = walkPure root parts [] := by
  rw [VFS.walkGas]
  exact walkLoop_noSym root hr _ parts [] []

theorem walkPure_addr : ∀ (ps addr b : List String) (root : FSNode),
    walkPure root ps addr = some b → b = addr ++ ps
  | [], addr, b, root, h => by
    rw [walkPure] at h
    cases h
    simp
  | p :: rest, addr, b, root, h => by
    rw [walkPure] at h
    cases hg : VFS.getAt root addr with
    | none => simp [hg] at h
    | some cur =>
      simp only [hg] at h
      by_cases ht : cur.type = FSType.directory
      · simp only [ht] at h
        cases hc : cur.children with
        | none => simp [hc] at h
        | some es =>
          simp only [hc] at h
          cases hget : es.get p with
          | none => simp [hget] at h
          | some child =>
            simp only [hget] at h
            have := walkPure_addr rest (addr ++ [p]) b root (by simpa using h)
            simp [this]
      · simp [ht] at h

theorem walkPure_append : ∀ (xs ys addr : List String) (root : FSNode),
    walkPure root (xs ++ ys) addr =
      (walkPure root xs addr).bind (fun a => walkPure root ys a)
  | [], ys, addr, root => by simp [walkPure]
  | p :: rest, ys, addr, root => by
    rw [List.cons_append, walkPure, walkPure]
    cases hg : VFS.getAt root addr with
    | none => simp
    | some cur =>
      simp only []
      by_cases ht : cur.type = FSType.directory
      · simp only [ht]
        cases hc : cur.children with
        | none => simp
        | some es =>
          cases hget : es.get p with
          | none => simp [hget]
          | some child =>
            simp only [hget]
            exact walkPure_append rest ys (addr ++ [p]) root
      · simp [ht]

end Shell

namespace Shell

theorem setAt_type (n : FSNode) (p : String) (ps : List String) (v : FSNode) :
    (VFS.setAt n (p :: ps) v).type = n.type := by
  rw [VFS.setAt]
  cases hc : n.children with
  | none => rfl
  | some es =>
    simp only []
    cases hg : es.get p with
    | none => rfl
    | some child =>
      simp only []
      cases n with
      | mk nm t c tg pm ch => rfl

theorem setAt_children_isSome (n : FSNode) (p : String) (ps : List String)
    (v : FSNode) :
    (VFS.setAt n (p :: ps) v).children.isSome = n.children.isSome := by
  rw [VFS.setAt]
  cases hc : n.children with
  | none => simp [hc]
  | some es =>
    simp only []
    cases hg : es.get p with
    | none => simp [hc]
    | some child =>
      simp only []
      cases n with
      | mk nm t c tg pm ch =>
        simp only [FSNode.children] at hc
        subst hc
        rfl

theorem noSymEntries_set : ∀ (es : FSEntries) (k : String) (v : FSNode),
    noSymEntries es = true → noSymNode v = true →
    noSymEntries (es.set k v) = true
  | .nil, k, v, _, hv => by
    rw [FSEntries.set, noSymEntries, noSymEntries]
    simp [hv]
  | .cons k' n rest, k, v, hes, hv => by
    rw [noSymEntries] at hes
    simp only [Bool.and_eq_true] at hes
    rw [FSEntries.set]
    by_cases hk : k' = k
    · rw [if_pos hk, noSymEntries]
      simp [hv, hes.2]
    · rw [if_neg hk, noSymEntries]
      simp [hes.1, noSymEntries_set rest k v hes.2 hv]

theorem noSym_withChildren (n : FSNode) (es : FSEntries)
    (hn : noSymNode n = true) (hes : noSymEntries es = true) :
    noSymNode (n.withChildren (some es)) = true := by
  cases n with
  | mk nm t c tg pm ch =>
    rw [noSymNode.eq_def] at hn
    simp only [Bool.and_eq_true] at hn
    rw [FSNode.withChildren, noSymNode.eq_def]
    simp [hn.1, hes]

theorem noSym_setAt : ∀ (a : List String) (root v : FSNode),
    noSymNode root = true → noSymNode v = true →
    noSymNode (VFS.setAt root a v) = true
  | [], root, v, _, hv => hv
  | p :: ps, root, v, hr, hv => by
    rw [VFS.setAt]
    cases hc : root.children with
    | none => exact hr
    | some es =>
      simp only []
      cases hg : es.get p with
      | none => exact hr
      | some child =>
        simp only []
        have hes := noSym_children root es hr hc
        have hchild := noSymEntries_get es p child hes hg
        exact noSym_withChildren root _ hr
          (noSymEntries_set es p _ hes (noSym_setAt ps child v hchild hv))

theorem withChildren_children (n : FSNode) (x : Option FSEntries) :
    (n.withChildren x).children = x := by
  cases n with
  | mk nm t c tg pm ch => rfl

theorem isPrefixOf_self_append : ∀ (x y : List String),
    x.isPrefixOf (x ++ y) = true
  | [], y => by simp [List.isPrefixOf]
  | a :: x', y => by
    simp [List.isPrefixOf, isPrefixOf_self_append x' y]

theorem append_cons_isPrefixOf_false : ∀ (x : List String) (p : String)
    (rest : List String), ((x ++ p :: rest).isPrefixOf x) = false
  | [], p, rest => rfl
  | a :: x', p, rest => by
    simp [List.isPrefixOf, append_cons_isPrefixOf_false x' p rest]

theorem walkPure_setAt : ∀ (rem addr : List String) (root D' : FSNode),
    (VFS.getAt root (addr ++ rem)).isSome →
    walkPure root rem addr = some (addr ++ rem) →
    walkPure (VFS.setAt root (addr ++ rem) D') rem addr = some (addr ++ rem)
  | [], addr, root, D', _, _ => by rw [walkPure]; simp
  | p :: rest, addr, root, D', hsome, hwalk => by
    rw [walkPure] at hwalk
    cases hg : VFS.getAt root addr with
    | none => simp [hg] at hwalk
    | some cur =>
      simp only [hg] at hwalk
      by_cases ht : cur.type = FSType.directory
      · simp only [ht] at hwalk
        cases hc : cur.children with
        | none => simp [hc] at hwalk
        | some es =>
          simp only [hc] at hwalk
          cases hget : es.get p with
          | none => simp [hget] at hwalk
          | some child =>
            simp only [hget] at hwalk
            have hwalk' : walkPure root rest (addr ++ [p]) =
                some ((addr ++ [p]) ++ rest) := by
              rw [List.append_assoc]
              simpa using hwalk
            have hsome' : (VFS.getAt root ((addr ++ [p]) ++ rest)).isSome := by
              rw [List.append_assoc]
              simpa using hsome
            have hgsome : (VFS.getAt root addr).isSome := by simp [hg]
            have hgetAtNew : VFS.getAt
                (VFS.setAt root (addr ++ p :: rest) D') addr =
                some (VFS.setAt cur (p :: rest) D') := by
              rw [getAt_setAt (addr ++ p :: rest) root D' addr hsome]
              rw [append_cons_isPrefixOf_false addr p rest]
              rw [isPrefixOf_self_append addr (p :: rest)]
              simp only [Bool.false_eq_true, if_false, if_true]
              rw [List.drop_left, hg]
              rfl
            have hnewCur : VFS.setAt cur (p :: rest) D' =
                cur.withChildren (some (es.set p (VFS.setAt child rest D'))) := by
              rw [VFS.setAt]
              simp [hc, hget]
            have htN : (cur.withChildren
                (some (es.set p (VFS.setAt child rest D')))).type =
                FSType.directory := by
              cases cur with
              | mk nm t c tg pm ch =>
                simpa [FSNode.withChildren, FSNode.type] using ht
            have hihs := walkPure_setAt rest (addr ++ [p]) root D' hsome' hwalk'
            rw [List.append_assoc] at hihs
            simp only [List.singleton_append] at hihs
            rw [walkPure, hgetAtNew]
            simp only [hnewCur, htN, withChildren_children, get_set_self]
            simp [hihs]
      · simp [ht] at hwalk

end Shell

namespace Shell

theorem withChildren_type (n : FSNode) (x : Option FSEntries) :
    (n.withChildren x).type = n.type := by
  cases n with
  | mk nm t c tg pm ch => rfl

theorem noSym_newFileNode (f c : String) :
    noSymNode (newFileNode f c) = true := rfl

/-- Claim C4, amended.  The claim states that `write_file(p, c)` always
returns `true` with `read_file(p) = c` and `exists(p)` afterwards.  On the
code this needs preconditions: `writeFile` returns `false` and leaves the
tree unchanged when the parent of `p` does not resolve to a directory with a
children map, or when the node already at `p` is a directory.  For
symlink-free trees, under exactly those preconditions (the syntactic
resolution of `p` is non-root, its parent resolves to a directory carrying a
children map, and `p` is not currently a directory), the write succeeds and
the claimed postconditions hold. -/
theorem C4_amended (root : FSNode) (p c : String)
    (hns : noSymNode root = true)
    (hne : VFS.resolveParts p "/" ≠ [])
    (hpar : VFS.isDirWithChildren root
      ("/" ++ joinSlash (VFS.resolveParts p "/").dropLast) "/" = true)
    (hnotdir : VFS.isDirectory root p "/" = false) :
    (VFS.writeFile root p c "/").2 = true ∧
    VFS.readFile (VFS.writeFile root p c "/").1 p "/" = some c ∧
    VFS.existsPath (VFS.writeFile root p c "/").1 p "/" = true := by
  set qs := VFS.resolveParts p "/" with hq
  set pre := qs.dropLast with hpre
  set f := qs.getLast hne with hf
  have hcanon : ∀ x ∈ qs, canonPart x = true := by
    rw [hq]
    exact resolveParts_root_canon p
  have hsplit : pre ++ [f] = qs := by
    rw [hpre, hf]
    exact List.dropLast_append_getLast hne
  have hlast : qs.getLast? = some f := by
    rw [← hsplit]
    simp
  have hprecanon : ∀ x ∈ pre, canonPart x = true := fun x hx =>
    hcanon x (by rw [← hsplit]; exact List.mem_append_left _ hx)
  have hparent : VFS.resolveParts ("/" ++ joinSlash pre) "/" = pre :=
    resolveParts_of_canon pre hprecanon
  have hparts : splitSlash (VFS.resolvePath p "/") = qs := by
    rw [hq]
    exact splitSlash_resolvePath p "/"
  have hwgpre : VFS.walkGas root 21 pre = walkPure root pre [] :=
    walkGas_noSym root hns 20 pre
  have hrespar : VFS.resolve root ("/" ++ joinSlash pre) "/" =
      (walkPure root pre []).bind (VFS.getAt root) := by
    simp only [VFS.resolve, VFS.resolveAddr]
    rw [hparent, hwgpre]
  unfold VFS.isDirWithChildren at hpar
  rw [hrespar] at hpar
  cases hw : walkPure root pre [] with
  | none => simp [hw] at hpar
  | some a =>
  have ha : a = pre := by simpa using walkPure_addr pre [] a root hw
  subst ha
  simp only [hw, Option.some_bind] at hpar
  cases hg : VFS.getAt root pre with
  | none => simp [hg] at hpar
  | some P =>
  simp only [hg, Bool.and_eq_true, beq_iff_eq] at hpar
  obtain ⟨hPt, hPc⟩ := hpar
  rw [Option.isSome_iff_exists] at hPc
  obtain ⟨es, hes⟩ := hPc
  have hsymP : noSymNode P = true := noSym_getAt pre root P hns hg
  have hwq : ∀ ex, es.get f = some ex → VFS.resolve root p "/" = some ex := by
    intro ex hex
    have h1 : walkPure root [f] pre = some (pre ++ [f]) := by
      rw [walkPure]
      simp [hg, hPt, hes, hex, walkPure]
    have h2 : walkPure root qs [] = some qs := by
      rw [← hsplit, walkPure_append, hw]
      simpa using h1
    simp only [VFS.resolve, VFS.resolveAddr]
    rw [← hq, walkGas_noSym root hns 20 qs, h2]
    simp only [Option.some_bind]
    rw [← hsplit, getAt_append]
    simp only [hg, Option.some_bind]
    rw [getAt_single]
    simp [hes, hex]
  have hnd : ∀ ex, es.get f = some ex → ¬ ex.type = FSType.directory := by
    intro ex hex hdir
    unfold VFS.isDirectory at hnotdir
    rw [hwq ex hex] at hnotdir
    simp [hdir] at hnotdir
  have hwf : VFS.writeFile root p c "/" =
      (VFS.setAt root pre
        (P.withChildren (some (es.set f (newFileNode f c)))), true) := by
    rw [VFS.writeFile]
    simp only [hparts, hlast, ← hpre, hparent, hwgpre, hw, hg]
    simp only [hPt, hes]
    cases hex : es.get f with
    | none => simp
    | some ex => simp [hnd ex hex]
  have hnsN : noSymNode (newFileNode f c) = true := noSym_newFileNode f c
  have hnsD : noSymNode
      (P.withChildren (some (es.set f (newFileNode f c)))) = true :=
    noSym_withChildren P _ hsymP
      (noSymEntries_set es f _ (noSym_children P es hsymP hes) hnsN)
  have hns2 : noSymNode (VFS.setAt root pre
      (P.withChildren (some (es.set f (newFileNode f c))))) = true :=
    noSym_setAt pre root _ hns hnsD
  have hw2 : walkPure (VFS.setAt root pre
      (P.withChildren (some (es.set f (newFileNode f c))))) pre [] =
      some pre := by
    have := walkPure_setAt pre [] root
      (P.withChildren (some (es.set f (newFileNode f c))))
      (by simp [hg]) (by simpa using hw)
    simpa using this
  have hgq2 : VFS.getAt (VFS.setAt root pre
      (P.withChildren (some (es.set f (newFileNode f c))))) pre =
      some (P.withChildren (some (es.set f (newFileNode f c)))) := by
    rw [getAt_setAt pre root _ pre (by simp [hg])]
    have hp : pre.isPrefixOf pre = true := by
      have := isPrefixOf_self_append pre []
      simp only [List.append_nil] at this
      exact this
    simp [hp, List.drop_length, VFS.getAt]
  have hwf2 : walkPure (VFS.setAt root pre
      (P.withChildren (some (es.set f (newFileNode f c))))) [f] pre =
      some (pre ++ [f]) := by
    rw [walkPure, hgq2]
    simp [withChildren_type, hPt, withChildren_children, get_set_self,
      walkPure]
  have hwq2 : walkPure (VFS.setAt root pre
      (P.withChildren (some (es.set f (newFileNode f c))))) qs [] =
      some qs := by
    rw [← hsplit, walkPure_append, hw2]
    simpa using hwf2
  have hres2 : VFS.resolve (VFS.setAt root pre
      (P.withChildren (some (es.set f (newFileNode f c))))) p "/" =
      some (newFileNode f c) := by
    simp only [VFS.resolve, VFS.resolveAddr]
    rw [← hq, walkGas_noSym _ hns2 20 qs, hwq2]
    simp only [Option.some_bind]
    rw [← hsplit, getAt_append, hgq2]
    simp only [Option.some_bind]
    rw [getAt_single]
    simp [withChildren_children, get_set_self]
  refine ⟨by rw [hwf], ?_, ?_⟩
  · have h1 : (VFS.writeFile root p c "/").1 = VFS.setAt root pre
        (P.withChildren (some (es.set f (newFileNode f c)))) := by
      rw [hwf]
    rw [h1]
    unfold VFS.readFile
    rw [hres2]
    simp [newFileNode, FSNode.type, FSNode.content]
  · have h1 : (VFS.writeFile root p c "/").1 = VFS.setAt root pre
        (P.withChildren (some (es.set f (newFileNode f c)))) := by
      rw [hwf]
    rw [h1]
    unfold VFS.existsPath
    rw [hres2]
    rfl

end Shell

namespace Shell

/-- Concrete instance of `C4_amended`: writing `/tmp/x` in a root that holds
an empty `/tmp` directory. -/
theorem C4_amended_witness :
    ((VFS.writeFile (FSNode.mk "/" .directory none none (some "drwxr-xr-x")
        (some (.cons "tmp" (.mk "tmp" .directory none none
          (some "drwxr-xr-x") (some .nil)) .nil))) "/tmp/x" "hi" "/").2 =
      true ∧
     VFS.readFile (VFS.writeFile (FSNode.mk "/" .directory none none
        (some "drwxr-xr-x") (some (.cons "tmp" (.mk "tmp" .directory none
          none (some "drwxr-xr-x") (some .nil)) .nil))) "/tmp/x" "hi"
        "/").1 "/tmp/x" "/" = some "hi" ∧
     VFS.existsPath (VFS.writeFile (FSNode.mk "/" .directory none none
        (some "drwxr-xr-x") (some (.cons "tmp" (.mk "tmp" .directory none
          none (some "drwxr-xr-x") (some .nil)) .nil))) "/tmp/x" "hi"
        "/").1 "/tmp/x" "/" = true) :=
  C4_amended (FSNode.mk "/" .directory none none (some "drwxr-xr-x")
      (some (.cons "tmp" (.mk "tmp" .directory none none (some "drwxr-xr-x")
        (some .nil)) .nil))) "/tmp/x" "hi" rfl (by decide) rfl rfl

end Shell

namespace Shell

theorem wfKeysEntries_get : ∀ (es : FSEntries) (p : String) (v : FSNode),
    wfKeysEntries es = true → es.get p = some v → wfKeysNode v = true
  | .nil, p, v, _, hg => by simp [FSEntries.get] at hg
  | .cons k n rest, p, v, hns, hg => by
    rw [wfKeysEntries] at hns
    simp only [Bool.and_eq_true] at hns
    rw [FSEntries.get] at hg
    by_cases hk : k = p
    · rw [if_pos hk] at hg
      cases hg
      exact hns.1
    · rw [if_neg hk] at hg
      exact wfKeysEntries_get rest p v hns.2 hg

theorem wfKeys_children (n : FSNode) (es : FSEntries)
    (hn : wfKeysNode n = true) (hc : n.children = some es) :
    nodupKeys es = true ∧ wfKeysEntries es = true := by
  cases n with
  | mk nm t c tg pm ch =>
    rw [wfKeysNode.eq_def] at hn
    simp only [FSNode.children] at hc
    subst hc
    simpa [Bool.and_eq_true] using hn

theorem wfKeys_getAt : ∀ (a : List String) (root n : FSNode),
    wfKeysNode root = true → VFS.getAt root a = some n →
    wfKeysNode n = true
  | [], root, n, hr, hg => by
    rw [VFS.getAt] at hg
    cases hg
    exact hr
  | p :: ps, root, n, hr, hg => by
    rw [VFS.getAt] at hg
    cases hc : root.children with
    | none => simp [hc] at hg
    | some es =>
      simp only [hc] at hg
      cases hget : es.get p with
      | none => simp [hget] at hg
      | some child =>
        simp only [hget] at hg
        exact wfKeys_getAt ps child n
          (wfKeysEntries_get es p child (wfKeys_children root es hr hc).2 hget)
          hg

theorem get_del_imp (es : FSEntries) (k q : String) (v : FSNode)
    (hnd : nodupKeys es = true) (h : (es.del k).get q = some v) :
    es.get q = some v := by
  by_cases hq : q = k
  · subst hq
    rw [get_del_self es q hnd] at h
    cases h
  · rw [get_del_other es k q hq] at h
    exact h

theorem noSymEntries_del : ∀ (es : FSEntries) (k : String),
    noSymEntries es = true → noSymEntries (es.del k) = true
  | .nil, k, _ => rfl
  | .cons k' n rest, k, h => by
    rw [noSymEntries] at h
    simp only [Bool.and_eq_true] at h
    rw [FSEntries.del]
    by_cases hk : k' = k
    · rw [if_pos hk]
      exact h.2
    · rw [if_neg hk, noSymEntries]
      simp [h.1, noSymEntries_del rest k h.2]

theorem walkPure_getAt_isSome : ∀ (parts addr b : List String) (root : FSNode),
    walkPure root parts addr = some b → (VFS.getAt root addr).isSome →
    (VFS.getAt root b).isSome
  | [], addr, b, root, h, ha => by
    rw [walkPure] at h
    cases h
    exact ha
  | p :: rest, addr, b, root, h, ha => by
    rw [walkPure] at h
    cases hg : VFS.getAt root addr with
    | none => simp [hg] at h
    | some cur =>
      simp only [hg] at h
      by_cases ht : cur.type = FSType.directory
      · simp only [ht] at h
        cases hc : cur.children with
        | none => simp [hc] at h
        | some es =>
          simp only [hc] at h
          cases hget : es.get p with
          | none => simp [hget] at h
          | some child =>
            simp only [hget] at h
            have hnext : VFS.getAt root (addr ++ [p]) = some child := by
              rw [getAt_append, hg]
              simp only [Option.some_bind]
              rw [getAt_single, hc]
              simp [hget]
            exact walkPure_getAt_isSome rest (addr ++ [p]) b root
              (by simpa using h) (by simp [hnext])
      · simp [ht] at h

theorem isPrefixOf_to_append : ∀ (a b : List String),
    a.isPrefixOf b = true → ∃ t, b = a ++ t
  | [], b, _ => ⟨b, rfl⟩
  | x :: a', b, h => by
    cases b with
    | nil => simp [List.isPrefixOf] at h
    | cons y b' =>
      simp only [List.isPrefixOf, Bool.and_eq_true, beq_iff_eq] at h
      obtain ⟨t, ht⟩ := isPrefixOf_to_append a' b' h.2
      exact ⟨t, by rw [ht, h.1]; rfl⟩

theorem getAt_withChildren_del_sub (Sp : FSNode) (es : FSEntries) (sf : String)
    (hch : Sp.children = some es) (hnd : nodupKeys es = true) :
    ∀ (t : List String) (n : FSNode),
      VFS.getAt (Sp.withChildren (some (es.del sf))) t = some n →
      (t = [] ∧ n = Sp.withChildren (some (es.del sf))) ∨
        VFS.getAt Sp t = some n := by
  intro t n h
  cases t with
  | nil =>
    rw [VFS.getAt] at h
    cases h
    exact Or.inl ⟨rfl, rfl⟩
  | cons t0 tr =>
    rw [VFS.getAt, withChildren_children] at h
    cases hg : (es.del sf).get t0 with
    | none => simp [hg] at h
    | some v =>
      simp only [hg] at h
      refine Or.inr ?_
      rw [VFS.getAt, hch]
      simp only [get_del_imp es sf t0 v hnd hg]
      exact h

end Shell

namespace Shell

theorem walkPure_del (root Sp : FSNode) (A : List String) (es : FSEntries)
    (sf : String) (hA : VFS.getAt root A = some Sp)
    (hch : Sp.children = some es) (hnd : nodupKeys es = true) :
    ∀ (parts addr b : List String),
      walkPure (VFS.setAt root A (Sp.withChildren (some (es.del sf))))
        parts addr = some b →
      walkPure root parts addr = some b
  | [], addr, b, h => by
    rw [walkPure] at h
    rw [walkPure]
    exact h
  | p :: rest, addr, b, h => by
    rw [walkPure] at h
    cases hg2 : VFS.getAt
        (VFS.setAt root A (Sp.withChildren (some (es.del sf)))) addr with
    | none => simp [hg2] at h
    | some cur2 =>
      simp only [hg2] at h
      by_cases ht2 : cur2.type = FSType.directory
      case neg => simp [ht2] at h
      case pos =>
      rw [if_neg (by simp [ht2])] at h
      cases hc2 : cur2.children with
      | none => simp [hc2] at h
      | some ces =>
        simp only [hc2] at h
        cases hget2 : ces.get p with
        | none => simp [hget2] at h
        | some v2 =>
          simp only [hget2] at h
          have hrec := walkPure_del root Sp A es sf hA hch hnd rest
            (addr ++ [p]) b h
          have hEq := getAt_setAt A root
            (Sp.withChildren (some (es.del sf))) addr (by simp [hA])
          rw [hg2] at hEq
          by_cases hpa : A.isPrefixOf addr = true
          · rw [if_pos hpa] at hEq
            obtain ⟨t, ht⟩ := isPrefixOf_to_append A addr hpa
            subst ht
            rw [List.drop_left] at hEq
            rcases getAt_withChildren_del_sub Sp es sf hch hnd t cur2
                hEq.symm with ⟨hteq, hcur⟩ | hroot
            · subst hteq
              subst hcur
              rw [withChildren_type] at ht2
              rw [withChildren_children] at hc2
              cases hc2
              rw [walkPure]
              simp [hA, ht2, hch, get_del_imp es sf p v2 hnd hget2]
              simpa using hrec
            · have hgr : VFS.getAt root (A ++ t) = some cur2 := by
                rw [getAt_append, hA]
                simpa using hroot
              rw [walkPure]
              simp [hgr, ht2, hc2, hget2]
              simpa [List.append_assoc] using hrec
          · rw [if_neg hpa] at hEq
            by_cases hap : addr.isPrefixOf A = true
            · rw [if_pos hap] at hEq
              obtain ⟨t, htA⟩ := isPrefixOf_to_append addr A hap
              cases hgr : VFS.getAt root addr with
              | none => rw [hgr] at hEq; simp [Option.map] at hEq
              | some cur =>
                rw [hgr] at hEq
                simp only [Option.map] at hEq
                have hdrop : A.drop addr.length = t := by
                  rw [htA, List.drop_left]
                rw [hdrop] at hEq
                cases t with
                | nil =>
                  exfalso
                  apply hpa
                  rw [htA]
                  simp
                | cons r0 rr =>
                  rw [VFS.setAt] at hEq
                  cases hcc : cur.children with
                  | none =>
                    simp only [hcc] at hEq
                    cases hEq
                    rw [walkPure]
                    simp [hgr, ht2, hc2, hget2]
                    exact hrec
                  | some cs =>
                    simp only [hcc] at hEq
                    cases hcr0 : cs.get r0 with
                    | none =>
                      simp only [hcr0] at hEq
                      cases hEq
                      rw [walkPure]
                      simp [hgr, ht2, hc2, hget2]
                      exact hrec
                    | some ch =>
                      simp only [hcr0] at hEq
                      cases hEq
                      rw [withChildren_type] at ht2
                      rw [withChildren_children] at hc2
                      cases hc2
                      have hcsp : ∃ w, cs.get p = some w := by
                        by_cases hp0 : p = r0
                        · subst hp0
                          exact ⟨ch, hcr0⟩
                        · refine ⟨v2, ?_⟩
                          rw [← get_set_other cs r0 p _ hp0]
                          exact hget2
                      obtain ⟨w, hw⟩ := hcsp
                      rw [walkPure]
                      simp [hgr, ht2, hcc, hw]
                      exact hrec
            · rw [if_neg hap] at hEq
              rw [walkPure]
              simp [← hEq, ht2, hc2, hget2]
              exact hrec

end Shell

namespace Shell

theorem existsPath_root (root : FSNode) :
    VFS.existsPath root "/" "/" = true := rfl

set_option maxHeartbeats 2000000 in
/-- Claim C10.  For every context whose (symlink-free, well-keyed,
directory-rooted) filesystem holds a source file `s`, and every destination
path `d` whose parent directory does not exist, `mv s d` returns exit code 0
with empty output, yet afterwards neither the source nor the destination
exists: the destination write fails, its `false` result is ignored, and the
source is removed anyway, so the content is silently lost. -/
theorem C10_mv_lost_update (ctx : CommandContext) (cmd : ParsedCommand) (s d c : String)
    (hargs : cmd.args = [s, d])
    (hns : noSymNode ctx.fs = true)
    (hwk : wfKeysNode ctx.fs = true)
    (hrt : ctx.fs.type = FSType.directory)
    (hsrc : VFS.readFile ctx.fs (ctx.resolvePath s) "/" = some c)
    (hparent : VFS.existsPath ctx.fs
      ("/" ++ joinSlash
        (VFS.resolveParts (ctx.resolvePath d) "/").dropLast) "/" = false) :
    (handleMv cmd ctx none).1 = ⟨"", 0⟩ ∧
    VFS.existsPath (handleMv cmd ctx none).2.fs (ctx.resolvePath s) "/" =
      false ∧
    VFS.existsPath (handleMv cmd ctx none).2.fs (ctx.resolvePath d) "/" =
      false := by
  -- destination-side facts
  have hqcanon : ∀ x ∈ VFS.resolveParts (ctx.resolvePath d) "/",
      canonPart x = true := resolveParts_root_canon _
  have hqne : VFS.resolveParts (ctx.resolvePath d) "/" ≠ [] := by
    intro h0
    rw [h0] at hparent
    have : ("/" : String) ++ joinSlash (([] : List String)).dropLast = "/" :=
      rfl
    rw [this, existsPath_root] at hparent
    cases hparent
  have hqsplit : (VFS.resolveParts (ctx.resolvePath d) "/").dropLast ++
      [(VFS.resolveParts (ctx.resolvePath d) "/").getLast hqne] =
      VFS.resolveParts (ctx.resolvePath d) "/" :=
    List.dropLast_append_getLast hqne
  have hqlast : (VFS.resolveParts (ctx.resolvePath d) "/").getLast? =
      some ((VFS.resolveParts (ctx.resolvePath d) "/").getLast hqne) :=
    List.getLast?_eq_getLast _ hqne
  have hprecanon : ∀ x ∈ (VFS.resolveParts (ctx.resolvePath d) "/").dropLast,
      canonPart x = true := fun x hx =>
    hqcanon x (by rw [← hqsplit]; exact List.mem_append_left _ hx)
  have hparentparts : VFS.resolveParts
      ("/" ++ joinSlash (VFS.resolveParts (ctx.resolvePath d) "/").dropLast)
      "/" = (VFS.resolveParts (ctx.resolvePath d) "/").dropLast :=
    resolveParts_of_canon _ hprecanon
  have hwpre_none : walkPure ctx.fs
      (VFS.resolveParts (ctx.resolvePath d) "/").dropLast [] = none := by
    cases hw : walkPure ctx.fs
        (VFS.resolveParts (ctx.resolvePath d) "/").dropLast [] with
    | none => rfl
    | some a =>
      exfalso
      have ha : a = (VFS.resolveParts (ctx.resolvePath d) "/").dropLast := by
        have := walkPure_addr _ [] a ctx.fs hw
        simpa using this
      subst ha
      have hgs : (VFS.getAt ctx.fs
          (VFS.resolveParts (ctx.resolvePath d) "/").dropLast).isSome :=
        walkPure_getAt_isSome _ [] _ ctx.fs hw (by simp [VFS.getAt])
      rw [VFS.existsPath] at hparent
      simp only [VFS.resolve, VFS.resolveAddr, hparentparts] at hparent
      rw [walkGas_noSym ctx.fs hns 20 _, hw] at hparent
      simp only [Option.some_bind] at hparent
      rw [Option.isSome_iff_exists] at hgs
      obtain ⟨P, hP⟩ := hgs
      rw [hP] at hparent
      simp at hparent
  have hwq_none : walkPure ctx.fs
      (VFS.resolveParts (ctx.resolvePath d) "/") [] = none := by
    rw [← hqsplit, walkPure_append, hwpre_none]
    rfl
  have hres_d : VFS.resolve ctx.fs (ctx.resolvePath d) "/" = none := by
    simp only [VFS.resolve, VFS.resolveAddr]
    rw [walkGas_noSym ctx.fs hns 20 _, hwq_none]
    rfl
  have hdd : VFS.isDirectory ctx.fs (ctx.resolvePath d) "/" = false := by
    unfold VFS.isDirectory
    rw [hres_d]
  have hwfail : VFS.writeFile ctx.fs (ctx.resolvePath d) c "/" =
      (ctx.fs, false) := by
    rw [VFS.writeFile]
    rw [splitSlash_resolvePath, hqlast]
    simp only [hparentparts]
    rw [walkGas_noSym ctx.fs hns 20 _, hwpre_none]
  -- source-side facts
  have hscanon : ∀ x ∈ VFS.resolveParts (ctx.resolvePath s) "/",
      canonPart x = true := resolveParts_root_canon _
  have hresS : ∃ n, VFS.resolve ctx.fs (ctx.resolvePath s) "/" = some n ∧
      n.type = FSType.file ∧ n.content.getD "" = c := by
    rw [VFS.readFile] at hsrc
    cases hr : VFS.resolve ctx.fs (ctx.resolvePath s) "/" with
    | none => simp [hr] at hsrc
    | some n =>
      simp only [hr] at hsrc
      by_cases hf : n.type = FSType.file
      · rw [if_pos hf] at hsrc
        exact ⟨n, rfl, hf, by injection hsrc⟩
      · rw [if_neg hf] at hsrc
        cases hsrc
  obtain ⟨n, hres_s, hnf, hncontent⟩ := hresS
  have hwalkS : ∃ a, walkPure ctx.fs
      (VFS.resolveParts (ctx.resolvePath s) "/") [] = some a ∧
      VFS.getAt ctx.fs a = some n := by
    simp only [VFS.resolve, VFS.resolveAddr] at hres_s
    rw [walkGas_noSym ctx.fs hns 20 _] at hres_s
    cases hw : walkPure ctx.fs (VFS.resolveParts (ctx.resolvePath s) "/")
        [] with
    | none => simp [hw] at hres_s
    | some a =>
      simp only [hw, Option.some_bind] at hres_s
      exact ⟨a, rfl, hres_s⟩
  obtain ⟨a, hwss, hga⟩ := hwalkS
  have has : a = VFS.resolveParts (ctx.resolvePath s) "/" := by
    have := walkPure_addr _ [] a ctx.fs hwss
    simpa using this
  subst has
  have hsne : VFS.resolveParts (ctx.resolvePath s) "/" ≠ [] := by
    intro h0
    rw [h0] at hga
    rw [VFS.getAt] at hga
    injection hga with hga2
    rw [← hga2] at hnf
    rw [hrt] at hnf
    cases hnf
  have hssplit : (VFS.resolveParts (ctx.resolvePath s) "/").dropLast ++
      [(VFS.resolveParts (ctx.resolvePath s) "/").getLast hsne] =
      VFS.resolveParts (ctx.resolvePath s) "/" :=
    List.dropLast_append_getLast hsne
  have hslast : (VFS.resolveParts (ctx.resolvePath s) "/").getLast? =
      some ((VFS.resolveParts (ctx.resolvePath s) "/").getLast hsne) :=
    List.getLast?_eq_getLast _ hsne
  have hsprecanon : ∀ x ∈
      (VFS.resolveParts (ctx.resolvePath s) "/").dropLast,
      canonPart x = true := fun x hx =>
    hscanon x (by rw [← hssplit]; exact List.mem_append_left _ hx)
  have hsparentparts : VFS.resolveParts
      ("/" ++ joinSlash (VFS.resolveParts (ctx.resolvePath s) "/").dropLast)
      "/" = (VFS.resolveParts (ctx.resolvePath s) "/").dropLast :=
    resolveParts_of_canon _ hsprecanon
  have hwdec : ∃ a2, walkPure ctx.fs
      (VFS.resolveParts (ctx.resolvePath s) "/").dropLast [] = some a2 ∧
      walkPure ctx.fs
        [(VFS.resolveParts (ctx.resolvePath s) "/").getLast hsne] a2 =
        some (VFS.resolveParts (ctx.resolvePath s) "/") := by
    rw [← hssplit, walkPure_append] at hwss
    cases hw2 : walkPure ctx.fs
        (VFS.resolveParts (ctx.resolvePath s) "/").dropLast [] with
    | none => simp [hw2] at hwss
    | some a2 =>
      simp only [hw2, Option.some_bind] at hwss
      exact ⟨a2, rfl, by rw [hwss, hssplit]⟩
  obtain ⟨a2, hwspre, hwsf⟩ := hwdec
  have ha2 : a2 = (VFS.resolveParts (ctx.resolvePath s) "/").dropLast := by
    have := walkPure_addr _ [] a2 ctx.fs hwspre
    simpa using this
  subst ha2
  -- unfold the single final step of the source walk
  rw [walkPure] at hwsf
  cases hSp : VFS.getAt ctx.fs
      (VFS.resolveParts (ctx.resolvePath s) "/").dropLast with
  | none => simp [hSp] at hwsf
  | some Sp =>
  simp only [hSp] at hwsf
  by_cases hSpt : Sp.type = FSType.directory
  case neg => simp [hSpt] at hwsf
  case pos =>
  rw [if_neg (by simp [hSpt])] at hwsf
  cases hSpc : Sp.children with
  | none => simp [hSpc] at hwsf
  | some es2 =>
  simp only [hSpc] at hwsf
  cases htgt : es2.get
      ((VFS.resolveParts (ctx.resolvePath s) "/").getLast hsne) with
  | none => simp [htgt] at hwsf
  | some tgt =>
  simp only [htgt] at hwsf
  have hn_tgt : n = tgt := by
    rw [← hssplit, getAt_append, hSp] at hga
    simp only [Option.some_bind] at hga
    rw [getAt_single, hSpc] at hga
    simp only [Option.some_bind, htgt] at hga
    exact (Option.some.inj hga).symm
  have htgt_nd : ¬ tgt.type = FSType.directory := by
    rw [← hn_tgt, hnf]
    intro h0
    cases h0
  have hnd_es : nodupKeys es2 = true :=
    (wfKeys_children Sp es2
      (wfKeys_getAt _ ctx.fs Sp hwk hSp) hSpc).1
  have hrm : VFS.rm ctx.fs (ctx.resolvePath s) "/" =
      (VFS.setAt ctx.fs (VFS.resolveParts (ctx.resolvePath s) "/").dropLast
        (Sp.withChildren (some (es2.del
          ((VFS.resolveParts (ctx.resolvePath s) "/").getLast hsne)))),
       true) := by
    rw [VFS.rm]
    rw [splitSlash_resolvePath, hslast]
    simp only [hsparentparts]
    rw [walkGas_noSym ctx.fs hns 20 _, hwspre]
    simp only [hSp]
    rw [if_neg (by simp [hSpt])]
    simp only [hSpc, htgt]
    rw [if_neg (by simp [htgt_nd])]
  -- assemble handleMv
  have hmv : handleMv cmd ctx none =
      (⟨"", 0⟩, { ctx with fs :=
        (VFS.setAt ctx.fs (VFS.resolveParts (ctx.resolvePath s) "/").dropLast
          (Sp.withChildren (some (es2.del
            ((VFS.resolveParts (ctx.resolvePath s) "/").getLast
              hsne))))) }) := by
    simp only [handleMv, hargs]
    rw [if_neg (by simp)]
    simp only [List.headD_cons, List.getD_cons_zero, List.getD_cons_succ]
    rw [hsrc]
    rw [hdd]
    simp only [Bool.false_eq_true, if_false]
    rw [hwfail]
    simp only []
    rw [hrm]
  rw [hmv]
  refine ⟨rfl, ?_, ?_⟩
  · -- the source is gone
    have hns2 : noSymNode (VFS.setAt ctx.fs
        (VFS.resolveParts (ctx.resolvePath s) "/").dropLast
        (Sp.withChildren (some (es2.del
          ((VFS.resolveParts (ctx.resolvePath s) "/").getLast hsne))))) =
        true := by
      refine noSym_setAt _ ctx.fs _ hns ?_
      refine noSym_withChildren Sp _ (noSym_getAt _ ctx.fs Sp hns hSp) ?_
      exact noSymEntries_del es2 _
        (noSym_children Sp es2 (noSym_getAt _ ctx.fs Sp hns hSp) hSpc)
    have hw2pre : walkPure (VFS.setAt ctx.fs
        (VFS.resolveParts (ctx.resolvePath s) "/").dropLast
        (Sp.withChildren (some (es2.del
          ((VFS.resolveParts (ctx.resolvePath s) "/").getLast hsne)))))
        (VFS.resolveParts (ctx.resolvePath s) "/").dropLast [] =
        some (VFS.resolveParts (ctx.resolvePath s) "/").dropLast := by
      have := walkPure_setAt
        (VFS.resolveParts (ctx.resolvePath s) "/").dropLast [] ctx.fs
        (Sp.withChildren (some (es2.del
          ((VFS.resolveParts (ctx.resolvePath s) "/").getLast hsne))))
        (by simp [hSp]) (by simpa using hwspre)
      simpa using this
    have hgq2 : VFS.getAt (VFS.setAt ctx.fs
        (VFS.resolveParts (ctx.resolvePath s) "/").dropLast
        (Sp.withChildren (some (es2.del
          ((VFS.resolveParts (ctx.resolvePath s) "/").getLast hsne)))))
        (VFS.resolveParts (ctx.resolvePath s) "/").dropLast =
        some (Sp.withChildren (some (es2.del
          ((VFS.resolveParts (ctx.resolvePath s) "/").getLast hsne)))) := by
      rw [getAt_setAt _ ctx.fs _ _ (by simp [hSp])]
      have hp : ((VFS.resolveParts (ctx.resolvePath s) "/").dropLast
          ).isPrefixOf (VFS.resolveParts (ctx.resolvePath s) "/").dropLast =
          true := by
        have := isPrefixOf_self_append
          (VFS.resolveParts (ctx.resolvePath s) "/").dropLast []
        simp only [List.append_nil] at this
        exact this
      have hdl : List.drop
          ((VFS.resolveParts (ctx.resolvePath s) "/").length - 1)
          (VFS.resolveParts (ctx.resolvePath s) "/").dropLast = [] := by
        rw [← List.length_dropLast]
        exact List.drop_length _
      simp [hp, hdl, VFS.getAt]
    have hwq2 : walkPure (VFS.setAt ctx.fs
        (VFS.resolveParts (ctx.resolvePath s) "/").dropLast
        (Sp.withChildren (some (es2.del
          ((VFS.resolveParts (ctx.resolvePath s) "/").getLast hsne)))))
        ((VFS.resolveParts (ctx.resolvePath s) "/").dropLast ++
          [(VFS.resolveParts (ctx.resolvePath s) "/").getLast hsne]) [] =
        none := by
      rw [walkPure_append, hw2pre]
      simp only [Option.some_bind]
      rw [walkPure, hgq2]
      simp [withChildren_type, hSpt, withChildren_children,
        get_del_self es2 _ hnd_es]
    rw [hssplit] at hwq2
    simp only [VFS.existsPath, VFS.resolve, VFS.resolveAddr]
    rw [walkGas_noSym _ hns2 20 _, hwq2]
    rfl
  · -- nothing appeared at the destination
    have hns2 : noSymNode (VFS.setAt ctx.fs
        (VFS.resolveParts (ctx.resolvePath s) "/").dropLast
        (Sp.withChildren (some (es2.del
          ((VFS.resolveParts (ctx.resolvePath s) "/").getLast hsne))))) =
        true := by
      refine noSym_setAt _ ctx.fs _ hns ?_
      refine noSym_withChildren Sp _ (noSym_getAt _ ctx.fs Sp hns hSp) ?_
      exact noSymEntries_del es2 _
        (noSym_children Sp es2 (noSym_getAt _ ctx.fs Sp hns hSp) hSpc)
    have hwd : walkPure (VFS.setAt ctx.fs
        (VFS.resolveParts (ctx.resolvePath s) "/").dropLast
        (Sp.withChildren (some (es2.del
          ((VFS.resolveParts (ctx.resolvePath s) "/").getLast hsne)))))
        (VFS.resolveParts (ctx.resolvePath d) "/") [] = none := by
      cases hw : walkPure (VFS.setAt ctx.fs
          (VFS.resolveParts (ctx.resolvePath s) "/").dropLast
          (Sp.withChildren (some (es2.del
            ((VFS.resolveParts (ctx.resolvePath s) "/").getLast hsne)))))
          (VFS.resolveParts (ctx.resolvePath d) "/") [] with
      | none => rfl
      | some b =>
        exfalso
        have := walkPure_del ctx.fs Sp _ es2 _ hSp hSpc hnd_es
          (VFS.resolveParts (ctx.resolvePath d) "/") [] b hw
        rw [hwq_none] at this
        cases this
    simp only [VFS.existsPath, VFS.resolve, VFS.resolveAddr]
    rw [walkGas_noSym _ hns2 20 _, hwd]
    rfl

end Shell

namespace Shell

/-- Concrete instance of `C10_mv_lost_update`: `mv /src.txt /nodir/dest`
on a root holding only the file `/src.txt`, with no `/nodir`. -/
theorem C10_mv_lost_update_witness :
    ((handleMv (ParsedCommand.mk "mv" ["/src.txt", "/nodir/dest"]
        "/src.txt /nodir/dest" [] none none)
      (initCtxWith (FSNode.mk "/" .directory none none (some "drwxr-xr-x")
        (some (.cons "src.txt" (.mk "src.txt" .file (some "data") none
          (some "-rw-r--r--") none) .nil)))) none).1 = ⟨"", 0⟩ ∧
     VFS.existsPath (handleMv (ParsedCommand.mk "mv"
        ["/src.txt", "/nodir/dest"] "/src.txt /nodir/dest" [] none none)
      (initCtxWith (FSNode.mk "/" .directory none none (some "drwxr-xr-x")
        (some (.cons "src.txt" (.mk "src.txt" .file (some "data") none
          (some "-rw-r--r--") none) .nil)))) none).2.fs
      ((initCtxWith (FSNode.mk "/" .directory none none (some "drwxr-xr-x")
        (some (.cons "src.txt" (.mk "src.txt" .file (some "data") none
          (some "-rw-r--r--") none) .nil)))).resolvePath "/src.txt") "/" =
      false ∧
     VFS.existsPath (handleMv (ParsedCommand.mk "mv"
        ["/src.txt", "/nodir/dest"] "/src.txt /nodir/dest" [] none none)
      (initCtxWith (FSNode.mk "/" .directory none none (some "drwxr-xr-x")
        (some (.cons "src.txt" (.mk "src.txt" .file (some "data") none
          (some "-rw-r--r--") none) .nil)))) none).2.fs
      ((initCtxWith (FSNode.mk "/" .directory none none (some "drwxr-xr-x")
        (some (.cons "src.txt" (.mk "src.txt" .file (some "data") none
          (some "-rw-r--r--") none) .nil)))).resolvePath "/nodir/dest") "/" =
      false) :=
  C10_mv_lost_update
    (initCtxWith (FSNode.mk "/" .directory none none (some "drwxr-xr-x")
      (some (.cons "src.txt" (.mk "src.txt" .file (some "data") none
        (some "-rw-r--r--") none) .nil))))
    (ParsedCommand.mk "mv" ["/src.txt", "/nodir/dest"]
      "/src.txt /nodir/dest" [] none none)
    "/src.txt" "/nodir/dest" "data" rfl rfl rfl rfl rfl rfl

end Shell
